import Mathlib

/-!
Verification of the QuantMind workflow core (quantmind/workflow/tasks.py,
quantmind/workflow/pipeline.py, quantmind/workflow/agent.py) against its
specification.

The embedding is a faithful sequential model of the code:

* Machine-level details not observable by any claim are omitted: timestamps
  (`created_at`, `started_at`, `completed_at`), the `progress` float, and
  logging calls.
* The `ThreadPoolExecutor` is modelled by running a submitted task's body
  (`Pipeline._execute_task`) at submission time and storing its outcome in
  the `futures` map; a schedule oracle (`sched`) decides, at each poll of
  the scheduling loop, which outstanding futures the loop observes as done
  (an empty oracle entry list means "all of them", the synchronous
  schedule).  The unbounded `while` loop of `Pipeline._execute_tasks` is
  given explicit fuel, one unit per iteration of the outer loop; running
  out of fuel means the Python loop has not yet returned.
* Task subclasses are modelled by their observable behaviour: a `validate`
  function and an `execute` function over the task's own `papers` field and
  the pipeline context, plus a kind tag used by the agent's completion
  callback exactly where the Python uses `isinstance` checks.
-/

namespace QuantMind

/-- The fields of `quantmind.models.paper.Paper` that the workflow layer
reads: external identifiers, title and abstract.  `title` and `abstract`
are required strings in the pydantic model; `arxiv_id` and `doi` are
`Optional[str]`. -/
structure Paper where
  arxiv_id : Option String
  doi : Option String
  title : String
  abstract : String
  deriving DecidableEq

/-- Python truthiness of an `Optional[str]` field: `None` and `""` are
falsy. -/
def optTruthy : Option String → Bool
  | none => false
  | some s => s ≠ ""

/-- Values produced by task `execute` bodies: strings, lists of papers
(`CrawlTask`/`ParseTask`/`TagTask` results), or lists of ids
(`StoreTask` results). -/
inductive Val where
  | str (s : String)
  | papers (ps : List Paper)
  | strs (ss : List String)
  deriving DecidableEq

/-- `TaskStatus` enumeration from tasks.py. -/
inductive TaskStatus where
  | pending
  | running
  | completed
  | failed
  | cancelled
  deriving DecidableEq

/-- The concrete `Task` subclass a task object belongs to; the agent's
completion callback dispatches on this (`isinstance` in Python). -/
inductive TaskKind where
  | crawl
  | parse
  | tag
  | store
  | generic
  deriving DecidableEq

/-- Execution context of a pipeline (`Pipeline.context`): a string-keyed
map populated by `add_context` before the run. -/
abbrev Ctx := List (String × Val)

/-- The behavioural content of a task object: its id, its subclass kind,
its `papers` field (meaningful for parse/tag/store tasks, `[]` otherwise),
and its `validate`/`execute` methods.  `validate` reads the task's own
fields (for stage tasks, notably `papers`); `execute` reads the task's
`papers` field and the pipeline context, and either returns a value or
raises with a message. -/
structure WTask where
  task_id : String
  kind : TaskKind
  papers : List Paper
  validateFn : List Paper → Bool
  execFn : List Paper → Ctx → Except String Val

/-- A task object at run time: its behavioural content plus the mutable
lifecycle fields of the `Task` base class. -/
structure TaskRT where
  spec : WTask
  status : TaskStatus
  errorMessage : Option String
  result : Option Val

/-- A fresh task object, as built by `Task.__init__`: PENDING, no error,
no result. -/
def TaskRT.fresh (w : WTask) : TaskRT :=
  { spec := w, status := .pending, errorMessage := none, result := none }

/-- Ghost instrumentation: the observable lifecycle calls made on task
objects during a run (`task.start()`, `task.complete(result)`,
`task.fail(msg)`), in order. -/
inductive Event where
  | start (id : String)
  | complete (id : String) (v : Val)
  | fail (id : String) (msg : String)
  deriving DecidableEq

/-- Configuration stored by `Pipeline.__init__`: `max_workers`,
`retry_attempts` and `timeout`.  Only `max_workers` is ever read by the
scheduler; `timeout` bounds a `future.result` wait, which in this model
(bodies finish at submission) never blocks. -/
structure PipeConfig where
  maxWorkers : Nat
  retryAttempts : Nat
  timeout : Option Nat
  deriving DecidableEq

/-- The mutable state of a `Pipeline` during `_execute_tasks`: the task
list, the dependency map, the context, the results map, the outstanding
futures, and the loop-local `completed_tasks` / `executing_tasks` sets
(modelled as duplicate-free lists in insertion order), plus the ghost
event trace.  `hasAgentCallback` records whether `on_task_complete` was
set to `WorkflowAgent._on_task_complete` (as `create_extraction_pipeline`
does) or left unset. -/
structure PipeState where
  tasks : List TaskRT
  dependencies : List (String × List String)
  context : Ctx
  results : List (String × Val)
  futures : List (String × Except String Val)
  completedIds : List String
  executingIds : List String
  hasAgentCallback : Bool
  events : List Event

/-- Python `dict` lookup on an insertion-ordered association list. -/
def lookup {α : Type} (m : List (String × α)) (k : String) : Option α :=
  (m.find? (fun kv => kv.1 == k)).map (fun kv => kv.2)

/-- Python `dict` assignment `m[k] = v`: replaces in place if the key is
present, appends otherwise. -/
def setKey {α : Type} (m : List (String × α)) (k : String) (v : α) :
    List (String × α) :=
  if (m.find? (fun kv => kv.1 == k)).isSome then
    m.map (fun kv => if kv.1 == k then (k, v) else kv)
  else m ++ [(k, v)]

/-- Python `dict.pop(k)`. -/
def removeKey {α : Type} (m : List (String × α)) (k : String) :
    List (String × α) :=
  m.filter (fun kv => kv.1 != k)

/-- Python `set.add` on the list model of a set. -/
def setInsert (s : List String) (x : String) : List String :=
  if x ∈ s then s else s ++ [x]

/-- Python `set.discard` on the list model of a set. -/
def setDiscard (s : List String) (x : String) : List String :=
  s.filter (fun y => y != x)

/-- Mutation of a task object found by id: updates the first list entry
with the given id (task ids are unique in every pipeline the claims
quantify over, so this matches Python's mutation of the found object). -/
def updateFirst (ts : List TaskRT) (id : String) (f : TaskRT → TaskRT) :
    List TaskRT :=
  match ts with
  | [] => []
  | t :: rest =>
    if t.spec.task_id == id then f t :: rest
    else t :: updateFirst rest id f

/-- `WorkflowAgent._on_task_complete`: when a `CrawlTask` completes with a
list result, every `ParseTask`/`TagTask`/`StoreTask` in the pipeline that
contains it whose `papers` field is empty receives the result list; all
other tasks are untouched.  The pipeline looked up in `self.pipelines` is
the one currently executing (pipelines built by
`create_extraction_pipeline` are always registered there), so the callback
acts on the executing pipeline's own task list.  The Python guard
`isinstance(result, list)` is modelled by the result being a list of
papers, the only list a crawl task produces. -/
def onTaskComplete (tasks : List TaskRT) (t : WTask) (result : Val) :
    List TaskRT :=
  match t.kind, result with
  | .crawl, .papers ps =>
    tasks.map (fun u =>
      if u.spec.kind == .parse || u.spec.kind == .tag || u.spec.kind == .store then
        if u.spec.papers.isEmpty then
          { u with spec := { u.spec with papers := ps } }
        else u
      else u)
  | _, _ => tasks

/-- `Pipeline._execute_task`, the body run by the worker pool: `start()`
the task, call `execute(context)`; on success `complete(result)` and fire
the `on_task_complete` callback; on an exception `fail(str(e))` and
re-raise (so the future stores the exception).  The future's outcome is
recorded in `futures` under the task id. -/
def runBody (st : PipeState) (t : TaskRT) : PipeState :=
  let tasks1 := updateFirst st.tasks t.spec.task_id
    (fun u => { u with status := .running })
  let ev1 := st.events ++ [Event.start t.spec.task_id]
  match t.spec.execFn t.spec.papers st.context with
  | .ok v =>
    let tasks2 := updateFirst tasks1 t.spec.task_id
      (fun u => { u with status := .completed, result := some v })
    let tasks3 := if st.hasAgentCallback then onTaskComplete tasks2 t.spec v
      else tasks2
    { st with
        tasks := tasks3
        events := ev1 ++ [Event.complete t.spec.task_id v]
        futures := setKey st.futures t.spec.task_id (Except.ok v) }
  | .error m =>
    let tasks2 := updateFirst tasks1 t.spec.task_id
      (fun u => { u with status := .failed, errorMessage := some m })
    { st with
        tasks := tasks2
        events := ev1 ++ [Event.fail t.spec.task_id m]
        futures := setKey st.futures t.spec.task_id (Except.error m) }

/-- `Pipeline._submit_task`: if `task.validate()` is false, `fail` the
task with a validation message and return without creating a future;
otherwise submit the body to the pool. -/
def submitTask (st : PipeState) (t : TaskRT) : PipeState :=
  if t.spec.validateFn t.spec.papers then runBody st t
  else
    { st with
        tasks := updateFirst st.tasks t.spec.task_id
          (fun u => { u with status := .failed
                             errorMessage := some ("Task " ++ t.spec.task_id ++
                               " validation failed") })
        events := st.events ++
          [Event.fail t.spec.task_id
            ("Task " ++ t.spec.task_id ++ " validation failed")] }

/-- Dependency list of a task id (`self.dependencies.get(task_id, [])`). -/
def depsOf (deps : List (String × List String)) (id : String) : List String :=
  (lookup deps id).getD []

/-- `Pipeline._are_dependencies_met`. -/
def depsMet (st : PipeState) (id : String) : Bool :=
  (depsOf st.dependencies id).all (fun d => decide (d ∈ st.completedIds))

/-- The ready computation of `Pipeline._execute_tasks`: tasks, in list
order, that are neither completed nor executing and whose dependencies are
all completed. -/
def readyIds (st : PipeState) : List String :=
  (st.tasks.filter (fun t =>
    !(decide (t.spec.task_id ∈ st.completedIds)) &&
    !(decide (t.spec.task_id ∈ st.executingIds)) &&
    depsMet st t.spec.task_id)).map (fun t => t.spec.task_id)

/-- One step of the submit phase: if `executing_tasks` has fewer members
than `max_workers`, submit the ready task (re-read from the current task
list, as Python's references see mutations made earlier in the same loop)
and add its id to `executing_tasks`. -/
def submitStep (cfg : PipeConfig) (st : PipeState) (id : String) : PipeState :=
  if st.executingIds.length < cfg.maxWorkers then
    match st.tasks.find? (fun u => u.spec.task_id == id) with
    | some t =>
      let st1 := submitTask st t
      { st1 with executingIds := setInsert st1.executingIds id }
    | none => st
  else st

/-- The submit phase of one loop iteration: fold the submit step over the
ready tasks. -/
def submitPhase (cfg : PipeConfig) (st : PipeState) (ready : List String) :
    PipeState :=
  ready.foldl (submitStep cfg) st

/-- `Pipeline._handle_completed_task`: pop the future, discard the id from
`executing_tasks`, look the task up; on a successful future record the
result and add the id to `completed_tasks`; on an exception do nothing
further (the task is deliberately not added to `completed_tasks`). -/
def handleCompleted (st : PipeState) (id : String) : PipeState :=
  match lookup st.futures id with
  | none => st
  | some res =>
    match st.tasks.find? (fun u => u.spec.task_id == id) with
    | none =>
      { st with
          futures := removeKey st.futures id
          executingIds := setDiscard st.executingIds id }
    | some _ =>
      match res with
      | .ok v =>
        { st with
            futures := removeKey st.futures id
            executingIds := setDiscard st.executingIds id
            results := setKey st.results id v
            completedIds := setInsert st.completedIds id }
      | .error _ =>
        { st with
            futures := removeKey st.futures id
            executingIds := setDiscard st.executingIds id }

/-- The futures the loop observes as done at one poll: every outstanding
future whose task id the schedule oracle reveals (`none` / an exhausted
oracle reveals all of them — the synchronous schedule in which every
submitted body has visibly finished by the next poll). -/
def pollDone (sd : Option (List String)) (futures : List (String × Except String Val)) :
    List String :=
  match sd with
  | none => futures.map (fun kv => kv.1)
  | some visible => (futures.map (fun kv => kv.1)).filter (fun id => decide (id ∈ visible))

/-- Outcome of one iteration of the outer `while` loop. -/
inductive StepOut where
  | next (st : PipeState)
  | deadlockStop (st : PipeState)

/-- One iteration of the `while` loop of `Pipeline._execute_tasks`:
compute the ready tasks; if none are ready and unfinished tasks remain,
either poll outstanding futures (or sleep when none is observably done) or
raise the deadlock error when there is no outstanding future; otherwise
submit the ready tasks up to the worker bound and poll for completed
futures. -/
def loopIter (cfg : PipeConfig) (sd : Option (List String)) (st : PipeState) :
    StepOut :=
  if (readyIds st).isEmpty then
    if (st.tasks.filter
        (fun t => !(decide (t.spec.task_id ∈ st.completedIds)))).isEmpty then
      .next st
    else if st.futures.isEmpty then .deadlockStop st
    else .next ((pollDone sd st.futures).foldl handleCompleted st)
  else
    .next ((pollDone sd (submitPhase cfg st (readyIds st)).futures).foldl
      handleCompleted (submitPhase cfg st (readyIds st)))

/-- Result of running the scheduling loop with bounded fuel: the loop
returned (`done`), raised the deadlock exception (`deadlock`), or is still
running after `fuel` iterations (`outOfFuel`). -/
inductive RunResult where
  | done (st : PipeState)
  | deadlock (st : PipeState)
  | outOfFuel (st : PipeState)

/-- `Pipeline._execute_tasks`: loop while `len(completed_tasks) <
len(self.tasks)`, one fuel unit per iteration; the schedule oracle is
consumed one entry per iteration. -/
def runLoop (cfg : PipeConfig) : Nat → List (List String) → PipeState → RunResult
  | 0, _, st => .outOfFuel st
  | fuel + 1, sched, st =>
    if st.tasks.length ≤ st.completedIds.length then .done st
    else
      match loopIter cfg sched.head? st with
      | .next st1 => runLoop cfg fuel (sched.drop 1) st1
      | .deadlockStop st1 => .deadlock st1

/-- Final pipeline state of a run result. -/
def RunResult.state : RunResult → PipeState
  | .done st => st
  | .deadlock st => st
  | .outOfFuel st => st

/-- Whether the loop is still running after the given fuel. -/
def RunResult.isOutOfFuel : RunResult → Bool
  | .outOfFuel _ => true
  | _ => false

/-- Whether the loop raised the deadlock error. -/
def RunResult.isDeadlock : RunResult → Bool
  | .deadlock _ => true
  | _ => false

/-- A `Pipeline` object: name, the configuration stored by `__init__`,
the mutable state, and the pipeline-level `status` string. -/
structure Pipeline where
  name : String
  cfg : PipeConfig
  state : PipeState
  pstatus : String

/-- Observable outcome of `Pipeline.execute()`: returned the results map,
raised with a message, or (out of fuel) has not yet returned. -/
inductive ExecOutcome where
  | ok (results : List (String × Val))
  | raised (msg : String)
  | stillRunning
  deriving DecidableEq

/-- The message of the deadlock exception raised by `_execute_tasks`. -/
def deadlockMsg : String :=
  "Pipeline deadlock detected: no ready tasks and no running tasks"

/-- The state `Pipeline.execute` hands to the scheduling loop: the
loop-local `completed_tasks`/`executing_tasks` sets start empty, `futures`
is empty at entry for any pipeline that is fresh or whose previous
`execute` returned (the `finally` block clears it), and the ghost event
trace records the new run. -/
def execInit (p : Pipeline) : PipeState :=
  { p.state with
      completedIds := [], executingIds := [], futures := [], events := [] }

/-- `Pipeline.execute()`: set status to running, run `_execute_tasks`,
then on success set status completed and return the results, on the
deadlock exception set status failed and re-raise. -/
def Pipeline.execute (fuel : Nat) (sched : List (List String)) (p : Pipeline) :
    ExecOutcome × Pipeline :=
  match runLoop p.cfg fuel sched (execInit p) with
  | .done st =>
    (.ok st.results,
     { p with state := { st with futures := [] }, pstatus := "completed" })
  | .deadlock st =>
    (.raised deadlockMsg,
     { p with state := { st with futures := [] }, pstatus := "failed" })
  | .outOfFuel st =>
    (.stillRunning, { p with state := st, pstatus := "running" })

/-- One entry of `WorkflowAgent.execution_history` (the start/end
timestamps and the stats dictionary, which carry no information the claims
consult, are omitted). -/
structure HistoryEntry where
  pipeline_name : String
  status : String
  error : Option String
  results : Option (List (String × Val))
  deriving DecidableEq

/-- A quality filter registered via `add_quality_filter`: a Python
callable that returns a boolean or raises. -/
abbrev QualityFilter := Paper → Except String Bool

/-- The state of a `WorkflowAgent` that the claims consult: the
deduplication switch, the registered quality filters, the `seen_papers`
key set (a duplicate-free list in insertion order), the registered
pipelines, the execution history, and the accepted-but-unused
configuration values. -/
structure AgentState where
  enable_deduplication : Bool
  quality_filters : List QualityFilter
  seen_papers : List String
  pipelines : List (String × Pipeline)
  execution_history : List HistoryEntry
  retry_attempts : Nat
  max_workers : Nat

/-- `WorkflowAgent._get_paper_key`: the arXiv id if truthy, else the DOI
if truthy, else a hash of the lowercased title.  Python's `hash` builtin
is an opaque function of the lowercased title, passed here as the
`titleHash` parameter. -/
def getPaperKey (titleHash : String → Int) (p : Paper) : String :=
  if optTruthy p.arxiv_id then "arxiv:" ++ p.arxiv_id.getD ""
  else if optTruthy p.doi then "doi:" ++ p.doi.getD ""
  else "title:" ++ toString (titleHash p.title.toLower)

/-- Python `str.strip()`: remove leading and trailing whitespace.
(`String.trim` has the same meaning but does not reduce inside the
kernel, so the stripping is spelled out over the character list.) -/
def pyStrip (s : String) : String :=
  ⟨((s.data.dropWhile Char.isWhitespace).reverse.dropWhile
      Char.isWhitespace).reverse⟩

/-- Whether one registered filter admits the paper: a raising filter
counts as rejection (the `except` branch returns `False`). -/
def filterOk (f : QualityFilter) (p : Paper) : Bool :=
  match f p with
  | .ok true => true
  | .ok false => false
  | .error _ => false

/-- `WorkflowAgent._passes_quality_filters`: a non-trivial title (truthy
and at least 10 characters after stripping), a non-trivial abstract
(truthy and at least 50 characters after stripping), and every registered
filter admitting the paper. -/
def passesQualityFilters (filters : List QualityFilter) (p : Paper) : Bool :=
  if p.title == "" || (pyStrip p.title).length < 10 then false
  else if p.abstract == "" || (pyStrip p.abstract).length < 50 then false
  else filters.all (fun f => filterOk f p)

/-- One step of the `apply_quality_control` loop, threading the filtered
list and the `seen_papers` set: when deduplication is enabled, skip the
paper if its key was seen, otherwise record the key; then keep the paper
only if it passes the quality filters. -/
def qcStep (titleHash : String → Int) (dedup : Bool) (filters : List QualityFilter)
    (acc : List Paper × List String) (p : Paper) : List Paper × List String :=
  if dedup then
    if decide (getPaperKey titleHash p ∈ acc.2) then acc
    else if passesQualityFilters filters p then
      (acc.1 ++ [p], acc.2 ++ [getPaperKey titleHash p])
    else (acc.1, acc.2 ++ [getPaperKey titleHash p])
  else
    if passesQualityFilters filters p then (acc.1 ++ [p], acc.2) else acc

/-- `WorkflowAgent.apply_quality_control`: fold the step over the input
papers, starting from the agent's current `seen_papers`; returns the kept
papers and the updated agent state. -/
def applyQualityControl (titleHash : String → Int) (a : AgentState)
    (papers : List Paper) : List Paper × AgentState :=
  let r := papers.foldl (qcStep titleHash a.enable_deduplication a.quality_filters)
    ([], a.seen_papers)
  (r.1, { a with seen_papers := r.2 })

/-- Observable outcome of `WorkflowAgent.execute_pipeline`: the results
map on success, the re-raised pipeline error, the `ValueError` for an
unknown name, or (out of fuel) a run that has not yet returned. -/
inductive PipeRunOutcome where
  | ok (results : List (String × Val))
  | raised (msg : String)
  | notFound (msg : String)
  | stillRunning
  deriving DecidableEq

/-- `WorkflowAgent.execute_pipeline`: raise `ValueError` if the name is
unknown (recording nothing); otherwise run the pipeline and append exactly
one history entry — status "completed" with the results when `execute()`
returns, status "failed" with the error when it raises, in which case the
error is re-raised after recording. -/
def executePipeline (fuel : Nat) (sched : List (List String)) (a : AgentState)
    (name : String) : PipeRunOutcome × AgentState :=
  match lookup a.pipelines name with
  | none => (.notFound ("Pipeline '" ++ name ++ "' not found"), a)
  | some p =>
    match Pipeline.execute fuel sched p with
    | (.ok res, p1) =>
      (.ok res,
       { a with
           pipelines := setKey a.pipelines name p1
           execution_history := a.execution_history ++
             [{ pipeline_name := name, status := "completed", error := none,
                results := some res }] })
    | (.raised msg, p1) =>
      (.raised msg,
       { a with
           pipelines := setKey a.pipelines name p1
           execution_history := a.execution_history ++
             [{ pipeline_name := name, status := "failed", error := some msg,
                results := none }] })
    | (.stillRunning, p1) =>
      (.stillRunning, { a with pipelines := setKey a.pipelines name p1 })

/-- Status of the task with the given id in a pipeline state. -/
def statusOf (st : PipeState) (id : String) : Option TaskStatus :=
  (st.tasks.find? (fun u => u.spec.task_id == id)).map (fun u => u.status)

/-- Error message of the task with the given id. -/
def errorOf (st : PipeState) (id : String) : Option String :=
  (st.tasks.find? (fun u => u.spec.task_id == id)).bind (fun u => u.errorMessage)

/-- How many times the task with the given id was started (had its body
entered) during the run. -/
def countStart (id : String) (evs : List Event) : Nat :=
  evs.countP (fun e => match e with
    | .start i => i == id
    | _ => false)

/-- The ids of a pipeline state's task list, in order. -/
def taskIds (st : PipeState) : List String :=
  st.tasks.map (fun t => t.spec.task_id)

/-- A pipeline configuration with the source defaults
(`max_workers=4`, `retry_attempts=3`, no timeout). -/
def cfgDefault : PipeConfig :=
  { maxWorkers := 4, retryAttempts := 3, timeout := none }

/-- A generic task that validates and whose `execute` raises "boom"
(scenario task T1 of the deadlock-detection example). -/
def taskBoom : WTask :=
  { task_id := "T1", kind := .generic, papers := []
    validateFn := fun _ => true
    execFn := fun _ _ => .error "boom" }

/-- A generic task that validates and whose `execute` returns "y"
(scenario task T2, depending on T1). -/
def taskY : WTask :=
  { task_id := "T2", kind := .generic, papers := []
    validateFn := fun _ => true
    execFn := fun _ _ => .ok (.str "y") }

/-- A generic task that validates and whose `execute` returns "x". -/
def taskX : WTask :=
  { task_id := "T1", kind := .generic, papers := []
    validateFn := fun _ => true
    execFn := fun _ _ => .ok (.str "x") }

/-- A generic task whose `validate` returns false. -/
def taskInvalid : WTask :=
  { task_id := "V", kind := .generic, papers := []
    validateFn := fun _ => false
    execFn := fun _ _ => .ok (.str "v") }

/-- Fresh pipeline state over the given tasks and dependency map, as
`Pipeline.execute` hands it to the scheduling loop. -/
def freshState (ws : List WTask) (deps : List (String × List String)) :
    PipeState :=
  { tasks := ws.map TaskRT.fresh, dependencies := deps, context := []
    results := [], futures := [], completedIds := [], executingIds := []
    hasAgentCallback := false, events := [] }

/-- Scenario of claims about a failing prerequisite: T1 raises "boom",
T2 depends solely on T1. -/
def stateBoom : PipeState := freshState [taskBoom, taskY] [("T2", ["T1"])]

/-- Scenario of the validation-failure claims: a single task whose
`validate` returns false. -/
def stateInvalid : PipeState := freshState [taskInvalid] []

/-- Scenario of the fully successful two-task run: T1 returns "x", T2
depends on T1 and returns "y". -/
def stateXY : PipeState := freshState [taskX, taskY] [("T2", ["T1"])]

/-- The state the failing-prerequisite scenario returns to after every
iteration of the scheduling loop: T1 marked failed with "boom", T2 still
pending, all bookkeeping sets empty again, only the event trace grown. -/
def boomLoopState (ev : List Event) : PipeState :=
  { tasks := [{ spec := taskBoom, status := .failed
                errorMessage := some "boom", result := none },
              TaskRT.fresh taskY]
    dependencies := [("T2", ["T1"])], context := [], results := []
    futures := [], completedIds := [], executingIds := []
    hasAgentCallback := false, events := ev }

/-- The events appended by `n` consecutive retries of the failing task. -/
def boomCycle : Nat → List Event
  | 0 => []
  | n + 1 =>
    Event.start "T1" :: Event.fail "T1" "boom" :: boomCycle n

theorem boomCycle_countStart (n : Nat) : countStart "T1" (boomCycle n) = n := by
  induction n with
  | zero => rfl
  | succ n ih => simpa [boomCycle, countStart] using ih

theorem loopIter_boomLoopState (ev : List Event) :
    loopIter cfgDefault none (boomLoopState ev) =
      .next (boomLoopState (ev ++ [Event.start "T1", Event.fail "T1" "boom"])) := by
  have h : loopIter cfgDefault none (boomLoopState ev) =
      .next (boomLoopState ((ev ++ [Event.start "T1"]) ++ [Event.fail "T1" "boom"])) := rfl
  rw [h, List.append_assoc]
  rfl

theorem runLoop_boomLoopState (n : Nat) :
    ∀ ev : List Event,
      runLoop cfgDefault n [] (boomLoopState ev) =
        .outOfFuel (boomLoopState (ev ++ boomCycle n)) := by
  induction n with
  | zero => intro ev; simp [runLoop, boomCycle]
  | succ n ih =>
    intro ev
    show (if (boomLoopState ev).tasks.length ≤ (boomLoopState ev).completedIds.length
        then RunResult.done (boomLoopState ev)
        else
          match loopIter cfgDefault (List.head? []) (boomLoopState ev) with
          | .next st1 => runLoop cfgDefault n (List.drop 1 []) st1
          | .deadlockStop st1 => RunResult.deadlock st1) =
      .outOfFuel (boomLoopState (ev ++ boomCycle (n + 1)))
    rw [if_neg (by simp [boomLoopState])]
    simp only [List.head?, loopIter_boomLoopState, List.drop]
    rw [ih]
    simp [boomCycle, List.append_assoc]

theorem runLoop_stateBoom (n : Nat) :
    runLoop cfgDefault (n + 1) [] stateBoom =
      .outOfFuel (boomLoopState (boomCycle (n + 1))) := by
  show (if stateBoom.tasks.length ≤ stateBoom.completedIds.length
      then RunResult.done stateBoom
      else
        match loopIter cfgDefault (List.head? []) stateBoom with
        | .next st1 => runLoop cfgDefault n (List.drop 1 []) st1
        | .deadlockStop st1 => RunResult.deadlock st1) =
    .outOfFuel (boomLoopState (boomCycle (n + 1)))
  rw [if_neg (by simp [stateBoom, freshState])]
  have h1 : loopIter cfgDefault (List.head? ([] : List (List String))) stateBoom =
      .next (boomLoopState [Event.start "T1", Event.fail "T1" "boom"]) := rfl
  simp only [h1, List.drop]
  rw [runLoop_boomLoopState]
  simp [boomCycle]

/-- Claim C1: in the pipeline where T1's `execute` raises "boom" and T2
depends solely on T1, the spec says `execute()` raises a deadlock error
with T1 FAILED and T2 PENDING.  The code instead never terminates: the
failed T1 is never added to `completed_tasks`, so every iteration of the
scheduling loop finds it ready again and re-runs it — for every fuel bound
the loop is still running, T1's body has been entered once per iteration,
and T2 remains PENDING. -/
theorem c1_failing_prereq_loops_forever (fuel : Nat) :
    (runLoop cfgDefault fuel [] stateBoom).isOutOfFuel = true ∧
    countStart "T1" (runLoop cfgDefault fuel [] stateBoom).state.events = fuel ∧
    statusOf (runLoop cfgDefault fuel [] stateBoom).state "T2" =
      some TaskStatus.pending := by
  match fuel with
  | 0 => exact ⟨rfl, rfl, rfl⟩
  | n + 1 =>
    rw [runLoop_stateBoom]
    refine ⟨rfl, ?_, rfl⟩
    simpa [RunResult.state, boomLoopState] using boomCycle_countStart (n + 1)

/-- Claim C1, concrete instance: with fuel 5 the loop has not returned and
T1 has been started five times. -/
theorem c1_failing_prereq_loops_forever_witness :
    (runLoop cfgDefault 5 [] stateBoom).isOutOfFuel = true ∧
    countStart "T1" (runLoop cfgDefault 5 [] stateBoom).state.events = 5 ∧
    statusOf (runLoop cfgDefault 5 [] stateBoom).state "T2" =
      some TaskStatus.pending :=
  c1_failing_prereq_loops_forever 5

/-- Claim C2: the spec says a task's status sequence is a prefix of
PENDING, RUNNING, then one terminal status, and that the loop never moves
a FAILED task back to RUNNING.  The code violates this: in the
failing-prerequisite scenario the observed lifecycle calls on T1 are
`start` (RUNNING), `fail` ("boom", FAILED), then `start` again — the
scheduling loop re-submits the FAILED task, whose `start()` sets RUNNING
again. -/
theorem c2_failed_task_moved_back_to_running :
    statusOf (runLoop cfgDefault 1 [] stateBoom).state "T1" =
      some TaskStatus.failed ∧
    (runLoop cfgDefault 2 [] stateBoom).state.events =
      [Event.start "T1", Event.fail "T1" "boom",
       Event.start "T1", Event.fail "T1" "boom"] ∧
    (runLoop cfgDefault 2 [] stateBoom).state.events.get? 1 =
      some (Event.fail "T1" "boom") ∧
    (runLoop cfgDefault 2 [] stateBoom).state.events.get? 2 =
      some (Event.start "T1") := by
  refine ⟨rfl, ?_, rfl, rfl⟩
  rw [runLoop_stateBoom]
  rfl

/-- Claim C3, counterexample: for the pipeline holding the single task V
whose `validate` returns false, the claim says V is placed in the
completed set immediately so that it counts as done for the loop's
termination.  Instead V is never added to `completed_tasks` (it sits in
`executing_tasks` with no future), it never runs, and the loop terminates
by raising the deadlock error. -/
theorem c3_validation_failure_counterexample :
    (runLoop cfgDefault 2 [] stateInvalid).isDeadlock = true ∧
    "V" ∉ (runLoop cfgDefault 2 [] stateInvalid).state.completedIds ∧
    "V" ∈ (runLoop cfgDefault 2 [] stateInvalid).state.executingIds ∧
    statusOf (runLoop cfgDefault 2 [] stateInvalid).state "V" =
      some TaskStatus.failed ∧
    errorOf (runLoop cfgDefault 2 [] stateInvalid).state "V" =
      some "Task V validation failed" ∧
    countStart "V" (runLoop cfgDefault 2 [] stateInvalid).state.events = 0 := by
  refine ⟨rfl, ?_, ?_, rfl, rfl, rfl⟩ <;> decide

theorem find?_task_spec {ts : List TaskRT} {id : String} {t : TaskRT}
    (h : ts.find? (fun u => u.spec.task_id == id) = some t) :
    t ∈ ts ∧ t.spec.task_id = id := by
  refine ⟨List.mem_of_find?_eq_some h, ?_⟩
  have hp := List.find?_some h
  simpa using hp

theorem mem_setKey {α : Type} {m : List (String × α)} {k : String} {v : α}
    {kv : String × α} (h : kv ∈ setKey m k v) : kv ∈ m ∨ kv = (k, v) := by
  unfold setKey at h
  split at h
  · rcases List.mem_map.mp h with ⟨x, hx, hxe⟩
    by_cases hk : x.1 == k
    · right; rw [if_pos hk] at hxe; exact hxe.symm
    · left; rw [if_neg hk] at hxe; exact hxe ▸ hx
  · rcases List.mem_append.mp h with h1 | h1
    · exact Or.inl h1
    · right; simpa using h1

theorem mem_removeKey {α : Type} {m : List (String × α)} {k : String}
    {kv : String × α} (h : kv ∈ removeKey m k) : kv ∈ m :=
  List.mem_of_mem_filter h

theorem mem_setInsert {s : List String} {x y : String}
    (h : y ∈ setInsert s x) : y ∈ s ∨ y = x := by
  unfold setInsert at h
  split at h
  · exact Or.inl h
  · rcases List.mem_append.mp h with h1 | h1
    · exact Or.inl h1
    · right; simpa using h1

theorem mem_updateFirst {ts : List TaskRT} {id : String} {f : TaskRT → TaskRT}
    {u : TaskRT} (h : u ∈ updateFirst ts id f) :
    u ∈ ts ∨ ∃ t, t ∈ ts ∧ u = f t := by
  induction ts with
  | nil => simp [updateFirst] at h
  | cons t rest ih =>
    rw [updateFirst] at h
    split at h
    · rcases List.mem_cons.mp h with h1 | h1
      · exact Or.inr ⟨t, List.mem_cons_self t rest, h1⟩
      · exact Or.inl (List.mem_cons_of_mem t h1)
    · rcases List.mem_cons.mp h with h1 | h1
      · exact Or.inl (h1 ▸ List.mem_cons_self t rest)
      · rcases ih h1 with h2 | ⟨w, hw, he⟩
        · exact Or.inl (List.mem_cons_of_mem t h2)
        · exact Or.inr ⟨w, List.mem_cons_of_mem t hw, he⟩

/-- Membership in the task list after the agent callback: every resulting
task comes from an original task with the same id, kind, status, runtime
fields and behaviour functions (only the `papers` field may have been
replaced). -/
theorem mem_onTaskComplete {ts : List TaskRT} {w : WTask} {v : Val}
    {u : TaskRT} (h : u ∈ onTaskComplete ts w v) :
    ∃ t, t ∈ ts ∧ u.spec.task_id = t.spec.task_id ∧ u.spec.kind = t.spec.kind ∧
      u.spec.validateFn = t.spec.validateFn ∧ u.spec.execFn = t.spec.execFn ∧
      u.status = t.status ∧ u.errorMessage = t.errorMessage ∧
      u.result = t.result := by
  unfold onTaskComplete at h
  split at h
  · rcases List.mem_map.mp h with ⟨x, hx, hxe⟩
    refine ⟨x, hx, ?_⟩
    subst hxe
    split
    · split <;> exact ⟨rfl, rfl, rfl, rfl, rfl, rfl, rfl⟩
    · exact ⟨rfl, rfl, rfl, rfl, rfl, rfl, rfl⟩
  · exact ⟨u, h, rfl, rfl, rfl, rfl, rfl, rfl, rfl⟩

theorem mem_of_lookup_eq_some {α : Type} {m : List (String × α)} {k : String}
    {v : α} (h : lookup m k = some v) : (k, v) ∈ m := by
  unfold lookup at h
  cases hf : m.find? (fun kv => kv.1 == k) with
  | none => simp [hf] at h
  | some kv =>
    obtain ⟨k1, v1⟩ := kv
    have hm := List.mem_of_find?_eq_some hf
    have hp := List.find?_some hf
    simp at hp
    simp [hf] at h
    rw [← hp, ← h]
    exact hm

theorem get?_some_lt {α : Type} {l : List α} {j : Nat} {e : α}
    (h : l.get? j = some e) : j < l.length := by
  rcases List.get?_eq_some.mp h with ⟨hj, _⟩
  exact hj

theorem get?_append_some {α : Type} {l : List α} (l2 : List α) {j : Nat} {e : α}
    (h : l.get? j = some e) : (l ++ l2).get? j = some e := by
  rw [List.get?_append (get?_some_lt h)]
  exact h

/-- In the given event trace, every `start B` is preceded by a
`complete A`: task B is never started before task A has completed. -/
def startAfterComplete (A B : String) (evs : List Event) : Prop :=
  ∀ i, evs.get? i = some (Event.start B) →
    ∃ j, j < i ∧ ∃ v, evs.get? j = some (Event.complete A v)

theorem startAfterComplete_append_of_no_start {A B : String} {evs suffix : List Event}
    (h : startAfterComplete A B evs)
    (hs : ∀ e ∈ suffix, e ≠ Event.start B) :
    startAfterComplete A B (evs ++ suffix) := by
  intro i hi
  by_cases hlt : i < evs.length
  · rw [List.get?_append hlt] at hi
    rcases h i hi with ⟨j, hj, v, hv⟩
    exact ⟨j, hj, v, get?_append_some _ hv⟩
  · rw [List.get?_append_right (Nat.le_of_not_lt hlt)] at hi
    exact absurd rfl (hs _ (List.get?_mem hi))

theorem startAfterComplete_append_of_complete {A B : String} {evs : List Event}
    (suffix : List Event) (h : startAfterComplete A B evs)
    (hc : ∃ j v, evs.get? j = some (Event.complete A v)) :
    startAfterComplete A B (evs ++ suffix) := by
  intro i hi
  by_cases hlt : i < evs.length
  · rw [List.get?_append hlt] at hi
    rcases h i hi with ⟨j, hj, v, hv⟩
    exact ⟨j, hj, v, get?_append_some _ hv⟩
  · rcases hc with ⟨j, v, hj⟩
    exact ⟨j, Nat.lt_of_lt_of_le (get?_some_lt hj) (Nat.le_of_not_lt hlt), v,
      get?_append_some _ hj⟩

/-- Invariant connecting the scheduler's bookkeeping to the event trace:
every id in `completed_tasks` and every successful outstanding future has
a matching `complete` event, and every `start B` observed so far was
preceded by a `complete A`. -/
structure DepInv (A B : String) (st : PipeState) : Prop where
  completedEv : ∀ id ∈ st.completedIds,
    ∃ j v, st.events.get? j = some (Event.complete id v)
  futureEv : ∀ id v, (id, Except.ok v) ∈ st.futures →
    ∃ j, st.events.get? j = some (Event.complete id v)
  ordered : startAfterComplete A B st.events

theorem depInv_runBody {A B : String} {st : PipeState} {t : TaskRT}
    (h : DepInv A B st)
    (hB : t.spec.task_id = B →
      ∃ j v, st.events.get? j = some (Event.complete A v)) :
    DepInv A B (runBody st t) ∧
      (runBody st t).completedIds = st.completedIds ∧
      (runBody st t).dependencies = st.dependencies := by
  cases hres : t.spec.execFn t.spec.papers st.context with
  | ok v =>
    have hev : (runBody st t).events =
        st.events ++ [Event.start t.spec.task_id, Event.complete t.spec.task_id v] := by
      simp [runBody, hres]
    have hfu : (runBody st t).futures =
        setKey st.futures t.spec.task_id (Except.ok v) := by
      simp [runBody, hres]
    have hco : (runBody st t).completedIds = st.completedIds := by
      simp [runBody, hres]
    have hde : (runBody st t).dependencies = st.dependencies := by
      simp [runBody, hres]
    refine ⟨⟨?_, ?_, ?_⟩, hco, hde⟩
    · intro id hid
      rw [hco] at hid
      rcases h.completedEv id hid with ⟨j, w, hj⟩
      exact ⟨j, w, by rw [hev]; exact get?_append_some _ hj⟩
    · intro id w hw
      rw [hfu] at hw
      rcases mem_setKey hw with hold | hnew
      · rcases h.futureEv id w hold with ⟨j, hj⟩
        exact ⟨j, by rw [hev]; exact get?_append_some _ hj⟩
      · have hid : id = t.spec.task_id := congrArg Prod.fst hnew
        have hwv : (Except.ok w : Except String Val) = Except.ok v :=
          congrArg Prod.snd hnew
        have hwv2 : w = v := by injection hwv
        refine ⟨st.events.length + 1, ?_⟩
        rw [hev, List.get?_append_right (by omega)]
        subst hid hwv2
        simp
    · rw [hev]
      by_cases hid : t.spec.task_id = B
      · exact startAfterComplete_append_of_complete _ h.ordered (hB hid)
      · refine startAfterComplete_append_of_no_start h.ordered ?_
        intro e he
        rcases List.mem_cons.mp he with rfl | he2
        · intro hcon; injection hcon with h1; exact hid h1
        · rcases List.mem_cons.mp he2 with rfl | he3
          · intro hcon; cases hcon
          · simp at he3
  | error m =>
    have hev : (runBody st t).events =
        st.events ++ [Event.start t.spec.task_id, Event.fail t.spec.task_id m] := by
      simp [runBody, hres]
    have hfu : (runBody st t).futures =
        setKey st.futures t.spec.task_id (Except.error m) := by
      simp [runBody, hres]
    have hco : (runBody st t).completedIds = st.completedIds := by
      simp [runBody, hres]
    have hde : (runBody st t).dependencies = st.dependencies := by
      simp [runBody, hres]
    refine ⟨⟨?_, ?_, ?_⟩, hco, hde⟩
    · intro id hid
      rw [hco] at hid
      rcases h.completedEv id hid with ⟨j, w, hj⟩
      exact ⟨j, w, by rw [hev]; exact get?_append_some _ hj⟩
    · intro id w hw
      rw [hfu] at hw
      rcases mem_setKey hw with hold | hnew
      · rcases h.futureEv id w hold with ⟨j, hj⟩
        exact ⟨j, by rw [hev]; exact get?_append_some _ hj⟩
      · have hwv : (Except.ok w : Except String Val) = Except.error m :=
          congrArg Prod.snd hnew
        cases hwv
    · rw [hev]
      by_cases hid : t.spec.task_id = B
      · exact startAfterComplete_append_of_complete _ h.ordered (hB hid)
      · refine startAfterComplete_append_of_no_start h.ordered ?_
        intro e he
        rcases List.mem_cons.mp he with rfl | he2
        · intro hcon; injection hcon with h1; exact hid h1
        · rcases List.mem_cons.mp he2 with rfl | he3
          · intro hcon; cases hcon
          · simp at he3

theorem depInv_submitTask {A B : String} {st : PipeState} {t : TaskRT}
    (h : DepInv A B st)
    (hB : t.spec.task_id = B →
      ∃ j v, st.events.get? j = some (Event.complete A v)) :
    DepInv A B (submitTask st t) ∧
      (submitTask st t).completedIds = st.completedIds ∧
      (submitTask st t).dependencies = st.dependencies := by
  unfold submitTask
  split
  · exact depInv_runBody h hB
  · refine ⟨⟨?_, ?_, ?_⟩, rfl, rfl⟩
    · intro id hid
      rcases h.completedEv id hid with ⟨j, w, hj⟩
      exact ⟨j, w, get?_append_some _ hj⟩
    · intro id w hw
      rcases h.futureEv id w hw with ⟨j, hj⟩
      exact ⟨j, get?_append_some _ hj⟩
    · refine startAfterComplete_append_of_no_start h.ordered ?_
      intro e he
      rcases List.mem_cons.mp he with rfl | he2
      · intro hcon; cases hcon
      · simp at he2

theorem readyIds_depsMet {st : PipeState} {id : String}
    (h : id ∈ readyIds st) : depsMet st id = true := by
  unfold readyIds at h
  rcases List.mem_map.mp h with ⟨t, ht, rfl⟩
  have hp := (List.mem_filter.mp ht).2
  simp only [Bool.and_eq_true] at hp
  exact hp.2

theorem depsMet_mem {st : PipeState} {id d : String}
    (h : depsMet st id = true) (hd : d ∈ depsOf st.dependencies id) :
    d ∈ st.completedIds := by
  unfold depsMet at h
  rw [List.all_eq_true] at h
  simpa using h d hd

theorem depInv_submitStep {A B : String} (cfg : PipeConfig) (st0 : PipeState)
    (hdep : A ∈ depsOf st0.dependencies B) (id : String) (st : PipeState)
    (h : DepInv A B st) (hc : st.completedIds = st0.completedIds)
    (hd : st.dependencies = st0.dependencies) (hr : id ∈ readyIds st0) :
    DepInv A B (submitStep cfg st id) ∧
      (submitStep cfg st id).completedIds = st0.completedIds ∧
      (submitStep cfg st id).dependencies = st0.dependencies := by
  unfold submitStep
  by_cases hcap : st.executingIds.length < cfg.maxWorkers
  · simp only [hcap, if_true]
    cases hf : st.tasks.find? (fun u => u.spec.task_id == id) with
    | none => exact ⟨h, hc, hd⟩
    | some t =>
      have htid : t.spec.task_id = id := (find?_task_spec hf).2
      have hB : t.spec.task_id = B →
          ∃ j v, st.events.get? j = some (Event.complete A v) := by
        intro hBid
        have hidB : id = B := by rw [← htid, hBid]
        have hready : B ∈ readyIds st0 := hidB ▸ hr
        have hmet : depsMet st0 B = true := readyIds_depsMet hready
        have hAc : A ∈ st0.completedIds := depsMet_mem hmet hdep
        rw [← hc] at hAc
        rcases h.completedEv A hAc with ⟨j, v, hj⟩
        exact ⟨j, v, hj⟩
      obtain ⟨h1, h2, h3⟩ := depInv_submitTask h hB
      exact ⟨⟨h1.completedEv, h1.futureEv, h1.ordered⟩, by rw [← hc]; exact h2,
        by rw [← hd]; exact h3⟩
  · simp only [hcap, if_false]
    exact ⟨h, hc, hd⟩

theorem depInv_submitPhase {A B : String} (cfg : PipeConfig) (st0 : PipeState)
    (hdep : A ∈ depsOf st0.dependencies B) :
    ∀ (ids : List String) (st : PipeState), DepInv A B st →
      st.completedIds = st0.completedIds → st.dependencies = st0.dependencies →
      (∀ id ∈ ids, id ∈ readyIds st0) →
      DepInv A B (submitPhase cfg st ids) ∧
        (submitPhase cfg st ids).completedIds = st0.completedIds ∧
        (submitPhase cfg st ids).dependencies = st0.dependencies := by
  intro ids
  induction ids with
  | nil => intro st h hc hd _; exact ⟨h, hc, hd⟩
  | cons id rest ih =>
    intro st h hc hd hr
    have hstep : submitPhase cfg st (id :: rest) =
        submitPhase cfg (submitStep cfg st id) rest := rfl
    rw [hstep]
    obtain ⟨h1, h2, h3⟩ := depInv_submitStep cfg st0 hdep id st h hc hd
      (hr id (List.mem_cons_self id rest))
    exact ih _ h1 h2 h3 (fun i hi => hr i (List.mem_cons_of_mem id hi))

theorem depInv_handleCompleted {A B : String} {st : PipeState} (id : String)
    (h : DepInv A B st) :
    DepInv A B (handleCompleted st id) ∧
      (handleCompleted st id).events = st.events ∧
      (handleCompleted st id).dependencies = st.dependencies := by
  unfold handleCompleted
  cases hl : lookup st.futures id with
  | none => exact ⟨h, rfl, rfl⟩
  | some res =>
    cases hf : st.tasks.find? (fun u => u.spec.task_id == id) with
    | none =>
      refine ⟨⟨h.completedEv, ?_, h.ordered⟩, rfl, rfl⟩
      intro i w hw
      exact h.futureEv i w (mem_removeKey hw)
    | some t =>
      cases res with
      | ok v =>
        refine ⟨⟨?_, ?_, h.ordered⟩, rfl, rfl⟩
        · intro i hi
          rcases mem_setInsert hi with hold | rfl
          · exact h.completedEv i hold
          · rcases h.futureEv i v (mem_of_lookup_eq_some hl) with ⟨j, hj⟩
            exact ⟨j, v, hj⟩
        · intro i w hw
          exact h.futureEv i w (mem_removeKey hw)
      | error m =>
        refine ⟨⟨h.completedEv, ?_, h.ordered⟩, rfl, rfl⟩
        intro i w hw
        exact h.futureEv i w (mem_removeKey hw)

theorem depInv_handleFold {A B : String} :
    ∀ (ids : List String) (st : PipeState), DepInv A B st →
      DepInv A B (ids.foldl handleCompleted st) ∧
        (ids.foldl handleCompleted st).dependencies = st.dependencies := by
  intro ids
  induction ids with
  | nil => intro st h; exact ⟨h, rfl⟩
  | cons id rest ih =>
    intro st h
    obtain ⟨h1, _, h3⟩ := @depInv_handleCompleted A B st id h
    obtain ⟨h4, h5⟩ := ih (handleCompleted st id) h1
    exact ⟨h4, by simp only [List.foldl_cons]; rw [h5, h3]⟩

/-- The state carried out of one loop iteration. -/
def StepOut.state : StepOut → PipeState
  | .next st => st
  | .deadlockStop st => st

theorem depInv_loopIter {A B : String} (cfg : PipeConfig)
    (sd : Option (List String)) (st : PipeState)
    (hdep : A ∈ depsOf st.dependencies B) (h : DepInv A B st) :
    DepInv A B (loopIter cfg sd st).state ∧
      (loopIter cfg sd st).state.dependencies = st.dependencies := by
  unfold loopIter
  by_cases hready : (readyIds st).isEmpty = true
  · rw [if_pos hready]
    by_cases hrem : (st.tasks.filter
        (fun t => !(decide (t.spec.task_id ∈ st.completedIds)))).isEmpty = true
    · rw [if_pos hrem]
      exact ⟨h, rfl⟩
    · rw [if_neg hrem]
      by_cases hfut : st.futures.isEmpty = true
      · rw [if_pos hfut]
        exact ⟨h, rfl⟩
      · rw [if_neg hfut]
        exact depInv_handleFold _ st h
  · rw [if_neg hready]
    simp only [StepOut.state]
    obtain ⟨h1, _, h3⟩ := depInv_submitPhase cfg st hdep (readyIds st) st h rfl rfl
      (fun i hi => hi)
    obtain ⟨h4, h5⟩ := depInv_handleFold
      (pollDone sd (submitPhase cfg st (readyIds st)).futures)
      (submitPhase cfg st (readyIds st)) h1
    exact ⟨h4, by rw [h5, h3]⟩

theorem depInv_runLoop {A B : String} (cfg : PipeConfig) :
    ∀ (fuel : Nat) (sched : List (List String)) (st : PipeState),
      A ∈ depsOf st.dependencies B → DepInv A B st →
      DepInv A B (runLoop cfg fuel sched st).state := by
  intro fuel
  induction fuel with
  | zero => intro sched st _ h; exact h
  | succ n ih =>
    intro sched st hdep h
    show DepInv A B (RunResult.state
      (if st.tasks.length ≤ st.completedIds.length then RunResult.done st
       else match loopIter cfg sched.head? st with
            | .next st1 => runLoop cfg n (sched.drop 1) st1
            | .deadlockStop st1 => RunResult.deadlock st1))
    by_cases hc : st.tasks.length ≤ st.completedIds.length
    · simp only [hc, if_true]; exact h
    · simp only [hc, if_false]
      cases hit : loopIter cfg sched.head? st with
      | next st1 =>
        have := depInv_loopIter cfg sched.head? st hdep h
        rw [hit] at this
        exact ih (sched.drop 1) st1 (by
          have hd := this.2
          simp only [StepOut.state] at hd
          rw [hd]; exact hdep) (by
          have h1 := this.1
          simpa only [StepOut.state] using h1)
      | deadlockStop st1 =>
        have := depInv_loopIter cfg sched.head? st hdep h
        rw [hit] at this
        simpa only [StepOut.state, RunResult.state] using this.1

/-- Claim C5: for every pipeline with a dependency edge recorded from B to
A (A among B's prerequisite ids), in any execution — any fuel bound and
any schedule — task B is never started (never transitions to RUNNING)
before a `complete` lifecycle call for task A (A transitioning to
COMPLETED) has occurred. -/
theorem execute_state_events (fuel : Nat) (sched : List (List String))
    (p : Pipeline) :
    (Pipeline.execute fuel sched p).2.state.events =
      (runLoop p.cfg fuel sched (execInit p)).state.events := by
  unfold Pipeline.execute
  cases hr : runLoop p.cfg fuel sched (execInit p) <;> rfl

theorem c5_dependency_ordering (p : Pipeline) (A B : String) (fuel : Nat)
    (sched : List (List String))
    (hdep : A ∈ depsOf p.state.dependencies B) :
    startAfterComplete A B ((Pipeline.execute fuel sched p).2.state.events) := by
  have hinv : DepInv A B (execInit p) := by
    refine ⟨?_, ?_, ?_⟩
    · intro id hid; simp [execInit] at hid
    · intro id v hv; simp [execInit] at hv
    · intro i hi; simp [execInit] at hi
  have hdep0 : A ∈ depsOf (execInit p).dependencies B := hdep
  have hmain := depInv_runLoop (A := A) (B := B) p.cfg fuel sched (execInit p)
    hdep0 hinv
  rw [execute_state_events]
  exact hmain.ordered

/-- Invariant for a task id `x` all of whose task objects fail
validation: no `start x` event is ever emitted, `x` never enters
`completed_tasks`, and no future for `x` ever exists. -/
structure ValInv (x : String) (st : PipeState) : Prop where
  validFalse : ∀ t ∈ st.tasks, t.spec.task_id = x →
    ∀ ps, t.spec.validateFn ps = false
  noStart : ∀ e ∈ st.events, e ≠ Event.start x
  notCompleted : x ∉ st.completedIds
  noFuture : ∀ r, (x, r) ∉ st.futures

theorem valInv_updateFirst {x : String} {ts : List TaskRT} {id : String}
    {f : TaskRT → TaskRT} (hf : ∀ u, (f u).spec = u.spec)
    (h : ∀ t ∈ ts, t.spec.task_id = x → ∀ ps, t.spec.validateFn ps = false) :
    ∀ t ∈ updateFirst ts id f, t.spec.task_id = x →
      ∀ ps, t.spec.validateFn ps = false := by
  intro t ht
  rcases mem_updateFirst ht with h1 | ⟨w, hw, rfl⟩
  · exact h t h1
  · rw [hf w]
    exact h w hw

theorem valInv_submitTask {x : String} {st : PipeState} {t : TaskRT}
    (h : ValInv x st) (hmem : t ∈ st.tasks) :
    ValInv x (submitTask st t) ∧
      (submitTask st t).completedIds = st.completedIds ∧
      (submitTask st t).dependencies = st.dependencies := by
  unfold submitTask
  by_cases hv : t.spec.validateFn t.spec.papers = true
  · rw [if_pos hv]
    have hx : t.spec.task_id ≠ x := by
      intro hx
      have := h.validFalse t hmem hx t.spec.papers
      rw [hv] at this
      cases this
    cases hres : t.spec.execFn t.spec.papers st.context with
    | ok v =>
      refine ⟨⟨?_, ?_, ?_, ?_⟩, ?_, ?_⟩ <;> simp only [runBody, hres]
      · intro u hu hid ps
        by_cases hcb : st.hasAgentCallback = true
        · rw [if_pos hcb] at hu
          rcases mem_onTaskComplete hu with ⟨w, hw, hid2, _, hvf, _⟩
          rw [hvf]
          refine valInv_updateFirst ?_ (valInv_updateFirst ?_ h.validFalse) w hw
            (by rw [← hid2, hid]) ps <;> intro u <;> rfl
        · rw [if_neg hcb] at hu
          refine valInv_updateFirst ?_ (valInv_updateFirst ?_ h.validFalse)
            u hu hid ps <;> intro u <;> rfl
      · intro e he
        rcases List.mem_append.mp he with he1 | he2
        · rcases List.mem_append.mp he1 with he3 | he4
          · exact h.noStart e he3
          · rcases List.mem_singleton.mp he4 with rfl
            intro hcon; injection hcon with h1; exact hx h1
        · rcases List.mem_singleton.mp he2 with rfl
          intro hcon; cases hcon
      · exact h.notCompleted
      · intro r hr
        rcases mem_setKey hr with hold | hnew
        · exact h.noFuture r hold
        · exact hx (congrArg Prod.fst hnew).symm
    | error m =>
      refine ⟨⟨?_, ?_, ?_, ?_⟩, ?_, ?_⟩ <;> simp only [runBody, hres]
      · intro u hu hid ps
        refine valInv_updateFirst ?_ (valInv_updateFirst ?_ h.validFalse)
          u hu hid ps <;> intro u <;> rfl
      · intro e he
        rcases List.mem_append.mp he with he1 | he2
        · rcases List.mem_append.mp he1 with he3 | he4
          · exact h.noStart e he3
          · rcases List.mem_singleton.mp he4 with rfl
            intro hcon; injection hcon with h1; exact hx h1
        · rcases List.mem_singleton.mp he2 with rfl
          intro hcon; cases hcon
      · exact h.notCompleted
      · intro r hr
        rcases mem_setKey hr with hold | hnew
        · exact h.noFuture r hold
        · exact hx (congrArg Prod.fst hnew).symm
  · rw [if_neg hv]
    refine ⟨⟨?_, ?_, h.notCompleted, h.noFuture⟩, rfl, rfl⟩
    · intro u hu hid ps
      refine valInv_updateFirst ?_ h.validFalse u hu hid ps
      intro u; rfl
    · intro e he
      rcases List.mem_append.mp he with he1 | he2
      · exact h.noStart e he1
      · rcases List.mem_singleton.mp he2 with rfl
        intro hcon; cases hcon

theorem valInv_submitStep {x : String} (cfg : PipeConfig) (id : String)
    (st : PipeState) (h : ValInv x st) : ValInv x (submitStep cfg st id) := by
  unfold submitStep
  by_cases hcap : st.executingIds.length < cfg.maxWorkers
  · rw [if_pos hcap]
    cases hf : st.tasks.find? (fun u => u.spec.task_id == id) with
    | none => exact h
    | some t =>
      obtain ⟨h1, _, _⟩ := valInv_submitTask h (find?_task_spec hf).1
      exact ⟨h1.validFalse, h1.noStart, h1.notCompleted, h1.noFuture⟩
  · rw [if_neg hcap]
    exact h

theorem valInv_handleCompleted {x : String} (st : PipeState) (id : String)
    (h : ValInv x st) : ValInv x (handleCompleted st id) := by
  unfold handleCompleted
  cases hl : lookup st.futures id with
  | none => exact h
  | some res =>
    cases hf : st.tasks.find? (fun u => u.spec.task_id == id) with
    | none =>
      exact ⟨h.validFalse, h.noStart, h.notCompleted,
        fun r hr => h.noFuture r (mem_removeKey hr)⟩
    | some t =>
      cases res with
      | ok v =>
        refine ⟨h.validFalse, h.noStart, ?_,
          fun r hr => h.noFuture r (mem_removeKey hr)⟩
        intro hx
        rcases mem_setInsert hx with hold | rfl
        · exact h.notCompleted hold
        · exact h.noFuture (Except.ok v) (mem_of_lookup_eq_some hl)
      | error m =>
        exact ⟨h.validFalse, h.noStart, h.notCompleted,
          fun r hr => h.noFuture r (mem_removeKey hr)⟩

theorem valInv_handleFold {x : String} :
    ∀ (ids : List String) (st : PipeState), ValInv x st →
      ValInv x (ids.foldl handleCompleted st) := by
  intro ids
  induction ids with
  | nil => intro st h; exact h
  | cons id rest ih =>
    intro st h
    exact ih (handleCompleted st id) (valInv_handleCompleted st id h)

theorem valInv_submitFold {x : String} (cfg : PipeConfig) :
    ∀ (ids : List String) (st : PipeState), ValInv x st →
      ValInv x (submitPhase cfg st ids) := by
  intro ids
  induction ids with
  | nil => intro st h; exact h
  | cons id rest ih =>
    intro st h
    exact ih (submitStep cfg st id) (valInv_submitStep cfg id st h)

theorem valInv_loopIter {x : String} (cfg : PipeConfig)
    (sd : Option (List String)) (st : PipeState) (h : ValInv x st) :
    ValInv x (loopIter cfg sd st).state := by
  unfold loopIter
  by_cases hready : (readyIds st).isEmpty = true
  · rw [if_pos hready]
    by_cases hrem : (st.tasks.filter
        (fun t => !(decide (t.spec.task_id ∈ st.completedIds)))).isEmpty = true
    · rw [if_pos hrem]; exact h
    · rw [if_neg hrem]
      by_cases hfut : st.futures.isEmpty = true
      · rw [if_pos hfut]; exact h
      · rw [if_neg hfut]
        exact valInv_handleFold _ st h
  · rw [if_neg hready]
    exact valInv_handleFold _ _ (valInv_submitFold cfg (readyIds st) st h)

theorem valInv_runLoop {x : String} (cfg : PipeConfig) :
    ∀ (fuel : Nat) (sched : List (List String)) (st : PipeState), ValInv x st →
      ValInv x (runLoop cfg fuel sched st).state := by
  intro fuel
  induction fuel with
  | zero => intro sched st h; exact h
  | succ n ih =>
    intro sched st h
    show ValInv x (RunResult.state
      (if st.tasks.length ≤ st.completedIds.length then RunResult.done st
       else match loopIter cfg sched.head? st with
            | .next st1 => runLoop cfg n (sched.drop 1) st1
            | .deadlockStop st1 => RunResult.deadlock st1))
    by_cases hc : st.tasks.length ≤ st.completedIds.length
    · rw [if_pos hc]; exact h
    · rw [if_neg hc]
      cases hit : loopIter cfg sched.head? st with
      | next st1 =>
        have h1 := valInv_loopIter cfg sched.head? st h
        rw [hit] at h1
        exact ih (sched.drop 1) st1 h1
      | deadlockStop st1 =>
        have h1 := valInv_loopIter cfg sched.head? st h
        rw [hit] at h1
        exact h1

theorem execute_state_completedIds (fuel : Nat) (sched : List (List String))
    (p : Pipeline) :
    (Pipeline.execute fuel sched p).2.state.completedIds =
      (runLoop p.cfg fuel sched (execInit p)).state.completedIds := by
  unfold Pipeline.execute
  cases hr : runLoop p.cfg fuel sched (execInit p) <;> rfl

/-- Claim C3, amended: a task whose `validate` returns false is marked
FAILED with a validation error message and its `execute` is never called,
but it is placed in the executing set, not the completed set: in any run
it never enters `completed_tasks` (so it never counts as done for the
loop's termination condition, and the pipeline terminates by raising the
deadlock error once no other work remains, as the counterexample shows),
and its body is never started. -/
theorem c3_validation_failure_amended (p : Pipeline) (x : String) (fuel : Nat)
    (sched : List (List String))
    (hval : ∀ t ∈ p.state.tasks, t.spec.task_id = x →
      ∀ ps, t.spec.validateFn ps = false) :
    (∀ e ∈ (Pipeline.execute fuel sched p).2.state.events, e ≠ Event.start x) ∧
    countStart x (Pipeline.execute fuel sched p).2.state.events = 0 ∧
    x ∉ (Pipeline.execute fuel sched p).2.state.completedIds := by
  have hinv : ValInv x (execInit p) := by
    refine ⟨?_, ?_, ?_, ?_⟩
    · intro t ht hid ps
      exact hval t ht hid ps
    · intro e he; simp [execInit] at he
    · intro hx; simp [execInit] at hx
    · intro r hr; simp [execInit] at hr
  have hmain := valInv_runLoop (x := x) p.cfg fuel sched (execInit p) hinv
  refine ⟨?_, ?_, ?_⟩
  · rw [execute_state_events]
    exact hmain.noStart
  · rw [execute_state_events]
    unfold countStart
    rw [List.countP_eq_zero]
    intro e he
    have hne := hmain.noStart e he
    cases e with
    | start i =>
      simp only [beq_iff_eq]
      intro hcon
      exact hne (by rw [hcon])
    | complete i v => simp
    | fail i m => simp
  · rw [execute_state_completedIds]
    exact hmain.notCompleted

/-- Claim C3, amended, concrete instance: in the single-invalid-task
pipeline, V is never started and never completed. -/
theorem c3_validation_failure_amended_witness :
    (∀ e ∈ (Pipeline.execute 2 []
        { name := "p", cfg := cfgDefault, state := stateInvalid,
          pstatus := "initialized" }).2.state.events, e ≠ Event.start "V") ∧
    countStart "V" (Pipeline.execute 2 []
        { name := "p", cfg := cfgDefault, state := stateInvalid,
          pstatus := "initialized" }).2.state.events = 0 ∧
    "V" ∉ (Pipeline.execute 2 []
        { name := "p", cfg := cfgDefault, state := stateInvalid,
          pstatus := "initialized" }).2.state.completedIds :=
  c3_validation_failure_amended
    { name := "p", cfg := cfgDefault, state := stateInvalid,
      pstatus := "initialized" } "V" 2 []
    (by
      intro t ht hid ps
      have : t = TaskRT.fresh taskInvalid := by
        simpa [stateInvalid, freshState] using ht
      subst this
      rfl)

theorem submitStep_cfg_irrel {cfg cfg' : PipeConfig}
    (h : cfg.maxWorkers = cfg'.maxWorkers) (st : PipeState) (id : String) :
    submitStep cfg st id = submitStep cfg' st id := by
  unfold submitStep
  rw [h]

theorem submitPhase_cfg_irrel {cfg cfg' : PipeConfig}
    (h : cfg.maxWorkers = cfg'.maxWorkers) :
    ∀ (ids : List String) (st : PipeState),
      submitPhase cfg st ids = submitPhase cfg' st ids := by
  intro ids
  induction ids with
  | nil => intro st; rfl
  | cons id rest ih =>
    intro st
    show submitPhase cfg (submitStep cfg st id) rest = _
    rw [submitStep_cfg_irrel h, ih]
    rfl

theorem loopIter_cfg_irrel {cfg cfg' : PipeConfig}
    (h : cfg.maxWorkers = cfg'.maxWorkers) (sd : Option (List String))
    (st : PipeState) : loopIter cfg sd st = loopIter cfg' sd st := by
  unfold loopIter
  rw [submitPhase_cfg_irrel h]

theorem runLoop_cfg_irrel {cfg cfg' : PipeConfig}
    (h : cfg.maxWorkers = cfg'.maxWorkers) :
    ∀ (fuel : Nat) (sched : List (List String)) (st : PipeState),
      runLoop cfg fuel sched st = runLoop cfg' fuel sched st := by
  intro fuel
  induction fuel with
  | zero => intro sched st; rfl
  | succ n ih =>
    intro sched st
    show (if st.tasks.length ≤ st.completedIds.length then RunResult.done st
       else match loopIter cfg sched.head? st with
            | .next st1 => runLoop cfg n (sched.drop 1) st1
            | .deadlockStop st1 => RunResult.deadlock st1) =
      (if st.tasks.length ≤ st.completedIds.length then RunResult.done st
       else match loopIter cfg' sched.head? st with
            | .next st1 => runLoop cfg' n (sched.drop 1) st1
            | .deadlockStop st1 => RunResult.deadlock st1)
    rw [loopIter_cfg_irrel h]
    by_cases hc : st.tasks.length ≤ st.completedIds.length
    · rw [if_pos hc, if_pos hc]
    · rw [if_neg hc, if_neg hc]
      cases loopIter cfg' sched.head? st with
      | next st1 => exact ih (sched.drop 1) st1
      | deadlockStop st1 => rfl

/-- Claim C9: `retry_attempts` is stored by `Pipeline.__init__` but never
consulted by the scheduler.  Two executions of the same pipeline differing
only in the `retry_attempts` value produce the same outcome, the same
final state (task statuses, results map, and the full event trace — so
the same tasks ran the same number of times) and the same pipeline
status, for every fuel bound and schedule. -/
theorem c9_retry_attempts_not_consulted (p : Pipeline) (r1 r2 : Nat)
    (fuel : Nat) (sched : List (List String)) :
    (Pipeline.execute fuel sched
        { p with cfg := { p.cfg with retryAttempts := r1 } }).1 =
      (Pipeline.execute fuel sched
        { p with cfg := { p.cfg with retryAttempts := r2 } }).1 ∧
    (Pipeline.execute fuel sched
        { p with cfg := { p.cfg with retryAttempts := r1 } }).2.state =
      (Pipeline.execute fuel sched
        { p with cfg := { p.cfg with retryAttempts := r2 } }).2.state ∧
    (Pipeline.execute fuel sched
        { p with cfg := { p.cfg with retryAttempts := r1 } }).2.pstatus =
      (Pipeline.execute fuel sched
        { p with cfg := { p.cfg with retryAttempts := r2 } }).2.pstatus := by
  unfold Pipeline.execute
  have hst : execInit { p with cfg := { p.cfg with retryAttempts := r1 } } =
      execInit { p with cfg := { p.cfg with retryAttempts := r2 } } := rfl
  have hrun := @runLoop_cfg_irrel
    { p.cfg with retryAttempts := r1 }
    { p.cfg with retryAttempts := r2 } rfl fuel sched
    (execInit { p with cfg := { p.cfg with retryAttempts := r1 } })
  nth_rewrite 2 [hst] at hrun
  rw [hrun]
  cases runLoop { p.cfg with retryAttempts := r2 } fuel sched
      (execInit { p with cfg := { p.cfg with retryAttempts := r2 } }) with
  | done st => exact ⟨rfl, rfl, rfl⟩
  | deadlock st => exact ⟨rfl, rfl, rfl⟩
  | outOfFuel st => exact ⟨rfl, rfl, rfl⟩

/-- Claim C8: `execute_pipeline` on a registered pipeline name appends
exactly one new entry to the agent's execution history — keeping every
earlier entry — with status "completed" when the pipeline's `execute()`
returns and status "failed" when it raises; in the failing case the error
is re-raised after the entry is recorded. -/
theorem c8_execute_pipeline_history (fuel : Nat) (sched : List (List String))
    (a : AgentState) (name : String) (p : Pipeline)
    (hp : lookup a.pipelines name = some p) :
    (∀ res, (Pipeline.execute fuel sched p).1 = .ok res →
      (executePipeline fuel sched a name).2.execution_history =
          a.execution_history ++
            [{ pipeline_name := name, status := "completed", error := none,
               results := some res }] ∧
        (executePipeline fuel sched a name).1 = .ok res) ∧
    (∀ msg, (Pipeline.execute fuel sched p).1 = .raised msg →
      (executePipeline fuel sched a name).2.execution_history =
          a.execution_history ++
            [{ pipeline_name := name, status := "failed", error := some msg,
               results := none }] ∧
        (executePipeline fuel sched a name).1 = .raised msg) := by
  rcases hE : Pipeline.execute fuel sched p with ⟨out, p1⟩
  constructor
  · intro res hres
    simp only at hres
    subst hres
    simp only [executePipeline, hp, hE]
    exact ⟨trivial, trivial⟩
  · intro msg hmsg
    simp only at hmsg
    subst hmsg
    simp only [executePipeline, hp, hE]
    exact ⟨trivial, trivial⟩

/-- The two-task pipeline object of the end-to-end scenario. -/
def pipeXY : Pipeline :=
  { name := "p", cfg := cfgDefault, state := stateXY, pstatus := "initialized" }

/-- An agent holding only the two-task pipeline, with empty history. -/
def agentXY : AgentState :=
  { enable_deduplication := true, quality_filters := [], seen_papers := []
    pipelines := [("p", pipeXY)], execution_history := []
    retry_attempts := 3, max_workers := 4 }

/-- Claim C8, concrete instance: running the registered two-task pipeline
appends one "completed" entry holding its results. -/
theorem c8_execute_pipeline_history_witness :
    (executePipeline 3 [] agentXY "p").2.execution_history =
        [{ pipeline_name := "p", status := "completed", error := none,
           results := some [("T1", Val.str "x"), ("T2", Val.str "y")] }] ∧
      (executePipeline 3 [] agentXY "p").1 =
        .ok [("T1", Val.str "x"), ("T2", Val.str "y")] :=
  ((c8_execute_pipeline_history 3 [] agentXY "p" pipeXY rfl).1
    [("T1", Val.str "x"), ("T2", Val.str "y")] (by decide))

theorem passes_eq_true_iff (filters : List QualityFilter) (p : Paper) :
    passesQualityFilters filters p = true ↔
      (p.title ≠ "" ∧ 10 ≤ (pyStrip p.title).length ∧ p.abstract ≠ "" ∧
        50 ≤ (pyStrip p.abstract).length ∧
        ∀ f ∈ filters, f p = Except.ok true) := by
  unfold passesQualityFilters
  constructor
  · intro hp
    split at hp
    · cases hp
    · split at hp
      · cases hp
      · rename_i h1 h2
        simp only [Bool.or_eq_true, beq_iff_eq, decide_eq_true_eq, not_or] at h1 h2
        obtain ⟨h1a, h1b⟩ := h1
        obtain ⟨h2a, h2b⟩ := h2
        rw [List.all_eq_true] at hp
        refine ⟨h1a, by omega, h2a, by omega, ?_⟩
        intro f hf
        have hok := hp f hf
        unfold filterOk at hok
        cases hfp : f p with
        | ok b =>
          cases b
          · rw [hfp] at hok; cases hok
          · rfl
        | error e => rw [hfp] at hok; cases hok
  · intro ⟨ha, hb, hc, hd, he⟩
    have hcond1 : ¬((p.title == "" || decide ((pyStrip p.title).length < 10)) = true) := by
      simp only [Bool.or_eq_true, beq_iff_eq, decide_eq_true_eq, not_or]
      exact ⟨ha, by omega⟩
    have hcond2 : ¬((p.abstract == "" || decide ((pyStrip p.abstract).length < 50)) = true) := by
      simp only [Bool.or_eq_true, beq_iff_eq, decide_eq_true_eq, not_or]
      exact ⟨hc, by omega⟩
    rw [if_neg hcond1, if_neg hcond2, List.all_eq_true]
    intro f hf
    unfold filterOk
    rw [he f hf]

theorem qcStep_dup {h : String → Int} {filters : List QualityFilter}
    {kept : List Paper} {seen : List String} {q : Paper}
    (hs : getPaperKey h q ∈ seen) :
    qcStep h true filters (kept, seen) q = (kept, seen) := by
  unfold qcStep
  rw [if_pos rfl, if_pos (decide_eq_true hs)]

theorem qcStep_new_pass {h : String → Int} {filters : List QualityFilter}
    {kept : List Paper} {seen : List String} {q : Paper}
    (hs : getPaperKey h q ∉ seen) (hq : passesQualityFilters filters q = true) :
    qcStep h true filters (kept, seen) q =
      (kept ++ [q], seen ++ [getPaperKey h q]) := by
  unfold qcStep
  rw [if_pos rfl, if_neg (by simpa using hs), if_pos hq]

theorem qcStep_new_fail {h : String → Int} {filters : List QualityFilter}
    {kept : List Paper} {seen : List String} {q : Paper}
    (hs : getPaperKey h q ∉ seen)
    (hq : ¬passesQualityFilters filters q = true) :
    qcStep h true filters (kept, seen) q = (kept, seen ++ [getPaperKey h q]) := by
  unfold qcStep
  rw [if_pos rfl, if_neg (by simpa using hs), if_neg hq]

theorem qcStep_nodedup_pass {h : String → Int} {filters : List QualityFilter}
    {kept : List Paper} {seen : List String} {q : Paper} {dedup : Bool}
    (hd : ¬dedup = true) (hq : passesQualityFilters filters q = true) :
    qcStep h dedup filters (kept, seen) q = (kept ++ [q], seen) := by
  unfold qcStep
  rw [if_neg hd, if_pos hq]

theorem qcStep_nodedup_fail {h : String → Int} {filters : List QualityFilter}
    {kept : List Paper} {seen : List String} {q : Paper} {dedup : Bool}
    (hd : ¬dedup = true) (hq : ¬passesQualityFilters filters q = true) :
    qcStep h dedup filters (kept, seen) q = (kept, seen) := by
  unfold qcStep
  rw [if_neg hd, if_neg hq]

theorem qcFold_passes (h : String → Int) (dedup : Bool)
    (filters : List QualityFilter) :
    ∀ (papers : List Paper) (kept : List Paper) (seen : List String),
      (∀ p ∈ kept, passesQualityFilters filters p = true) →
      ∀ p ∈ (papers.foldl (qcStep h dedup filters) (kept, seen)).1,
        passesQualityFilters filters p = true := by
  intro papers
  induction papers with
  | nil => intro kept seen hk p hp; exact hk p hp
  | cons q rest ih =>
    intro kept seen hk p hp
    rw [List.foldl_cons] at hp
    have hkq : ∀ hq : passesQualityFilters filters q = true,
        ∀ r ∈ kept ++ [q], passesQualityFilters filters r = true := by
      intro hq r hr
      rcases List.mem_append.mp hr with hr1 | hr2
      · exact hk r hr1
      · rw [List.mem_singleton.mp hr2]; exact hq
    by_cases hd : dedup = true
    · subst hd
      by_cases hs : getPaperKey h q ∈ seen
      · rw [qcStep_dup hs] at hp
        exact ih _ _ hk p hp
      · by_cases hq : passesQualityFilters filters q = true
        · rw [qcStep_new_pass hs hq] at hp
          exact ih _ _ (hkq hq) p hp
        · rw [qcStep_new_fail hs hq] at hp
          exact ih _ _ hk p hp
    · by_cases hq : passesQualityFilters filters q = true
      · rw [qcStep_nodedup_pass hd hq] at hp
        exact ih _ _ (hkq hq) p hp
      · rw [qcStep_nodedup_fail hd hq] at hp
        exact ih _ _ hk p hp

/-- Claim C7: every record in the list returned by
`apply_quality_control` passes the built-in minimum checks (truthy title
of stripped length at least 10, truthy abstract of stripped length at
least 50) and every registered quality filter returns true on it without
raising; any record failing a check, rejected by a filter, or on which a
filter raises is excluded (by this very statement it cannot appear in the
output). -/
theorem c7_quality_control_output_passes (h : String → Int) (a : AgentState)
    (papers : List Paper) :
    ∀ p ∈ (applyQualityControl h a papers).1,
      p.title ≠ "" ∧ 10 ≤ (pyStrip p.title).length ∧ p.abstract ≠ "" ∧
        50 ≤ (pyStrip p.abstract).length ∧
        ∀ f ∈ a.quality_filters, f p = Except.ok true := by
  intro p hp
  rw [← passes_eq_true_iff]
  exact qcFold_passes h a.enable_deduplication a.quality_filters papers []
    a.seen_papers (by intro r hr; cases hr) p hp

/-- A paper with a sufficient title and abstract used in the quality
control scenarios. -/
def paperGood : Paper :=
  { arxiv_id := some "2301.12345", doi := none
    title := "Transformer models in quantitative finance"
    abstract := String.join (List.replicate 10 "abcdeered ") }

/-- A paper that fails the minimum abstract-length check. -/
def paperShort : Paper :=
  { arxiv_id := none, doi := none
    title := "Another paper title here", abstract := "too short" }

/-- Claim C7, concrete instance: filtering a good and a too-short record
keeps only the good one, and the kept record satisfies every check. -/
theorem c7_quality_control_output_passes_witness :
    (applyQualityControl (fun _ => 0)
        { enable_deduplication := true, quality_filters := [], seen_papers := []
          pipelines := [], execution_history := [], retry_attempts := 3
          max_workers := 4 } [paperGood, paperShort]).1 = [paperGood] ∧
    (paperGood.title ≠ "" ∧ 10 ≤ (pyStrip paperGood.title).length ∧
      paperGood.abstract ≠ "" ∧ 50 ≤ (pyStrip paperGood.abstract).length ∧
      ∀ f ∈ ([] : List QualityFilter), f paperGood = Except.ok true) :=
  ⟨by decide, c7_quality_control_output_passes (fun _ => 0)
    { enable_deduplication := true, quality_filters := [], seen_papers := []
      pipelines := [], execution_history := [], retry_attempts := 3
      max_workers := 4 } [paperGood, paperShort] paperGood (by decide)⟩

theorem qcFold_dedup (h : String → Int) (filters : List QualityFilter) :
    ∀ (papers : List Paper) (kept : List Paper) (seen : List String),
      (∃ ks, (papers.foldl (qcStep h true filters) (kept, seen)).2 = seen ++ ks) ∧
      (seen.Nodup → (papers.foldl (qcStep h true filters) (kept, seen)).2.Nodup) ∧
      (∃ added, (papers.foldl (qcStep h true filters) (kept, seen)).1 = kept ++ added ∧
        (∀ p ∈ added, getPaperKey h p ∉ seen ∧
          ∃ pre post, papers = pre ++ p :: post ∧
            ∀ q ∈ pre, getPaperKey h q ≠ getPaperKey h p) ∧
        (added.map (getPaperKey h)).Nodup) := by
  intro papers
  induction papers with
  | nil =>
    intro kept seen
    exact ⟨⟨[], by simp⟩, fun hn => by simpa using hn,
      ⟨[], by simp, by simp, by simp⟩⟩
  | cons q rest ih =>
    intro kept seen
    have hsingle : ∀ k : String, k ∉ seen → seen.Nodup → (seen ++ [k]).Nodup := by
      intro k hk hn
      rw [List.nodup_append]
      refine ⟨hn, List.nodup_singleton k, ?_⟩
      intro a ha hb
      rw [List.mem_singleton.mp hb] at ha
      exact hk ha
    by_cases hs : getPaperKey h q ∈ seen
    · rw [List.foldl_cons, qcStep_dup hs]
      obtain ⟨⟨ks, h2⟩, hnd, ⟨added, ha1, ha2, ha3⟩⟩ := ih kept seen
      refine ⟨⟨ks, h2⟩, hnd, ⟨added, ha1, ?_, ha3⟩⟩
      intro p hp
      obtain ⟨hkey, pre, post, hsplit, hpre⟩ := ha2 p hp
      refine ⟨hkey, q :: pre, post, by rw [hsplit]; rfl, ?_⟩
      intro r hr
      rcases List.mem_cons.mp hr with rfl | hr2
      · intro hcon
        exact hkey (hcon ▸ hs)
      · exact hpre r hr2
    · by_cases hq : passesQualityFilters filters q = true
      · rw [List.foldl_cons, qcStep_new_pass hs hq]
        obtain ⟨⟨ks, h2⟩, hnd, ⟨added, ha1, ha2, ha3⟩⟩ :=
          ih (kept ++ [q]) (seen ++ [getPaperKey h q])
        refine ⟨⟨getPaperKey h q :: ks, by rw [h2, List.append_assoc]; rfl⟩,
          ?_, ⟨q :: added, ?_, ?_, ?_⟩⟩
        · intro hn
          exact hnd (hsingle _ hs hn)
        · rw [ha1, List.append_assoc]
          rfl
        · intro p hp
          rcases List.mem_cons.mp hp with rfl | hp2
          · exact ⟨hs, [], rest, rfl, by intro r hr; cases hr⟩
          · obtain ⟨hkey, pre, post, hsplit, hpre⟩ := ha2 p hp2
            have hkey2 : getPaperKey h p ∉ seen := by
              intro hc
              exact hkey (List.mem_append.mpr (Or.inl hc))
            have hkeyne : getPaperKey h p ≠ getPaperKey h q := by
              intro hc
              exact hkey (List.mem_append.mpr (Or.inr (by
                rw [hc]; exact List.mem_singleton_self _)))
            refine ⟨hkey2, q :: pre, post, by rw [hsplit]; rfl, ?_⟩
            intro r hr
            rcases List.mem_cons.mp hr with rfl | hr2
            · exact fun hc => hkeyne hc.symm
            · exact hpre r hr2
        · rw [List.map_cons, List.nodup_cons]
          refine ⟨?_, ha3⟩
          intro hc
          rcases List.mem_map.mp hc with ⟨p, hp, hkp⟩
          have hkey := (ha2 p hp).1
          exact hkey (List.mem_append.mpr (Or.inr (by
            rw [hkp]; exact List.mem_singleton_self _)))
      · rw [List.foldl_cons, qcStep_new_fail hs hq]
        obtain ⟨⟨ks, h2⟩, hnd, ⟨added, ha1, ha2, ha3⟩⟩ :=
          ih kept (seen ++ [getPaperKey h q])
        refine ⟨⟨getPaperKey h q :: ks, by rw [h2, List.append_assoc]; rfl⟩,
          ?_, ⟨added, ha1, ?_, ha3⟩⟩
        · intro hn
          exact hnd (hsingle _ hs hn)
        · intro p hp
          obtain ⟨hkey, pre, post, hsplit, hpre⟩ := ha2 p hp
          have hkey2 : getPaperKey h p ∉ seen := by
            intro hc
            exact hkey (List.mem_append.mpr (Or.inl hc))
          have hkeyne : getPaperKey h p ≠ getPaperKey h q := by
            intro hc
            exact hkey (List.mem_append.mpr (Or.inr (by
              rw [hc]; exact List.mem_singleton_self _)))
          refine ⟨hkey2, q :: pre, post, by rw [hsplit]; rfl, ?_⟩
          intro r hr
          rcases List.mem_cons.mp hr with rfl | hr2
          · exact fun hc => hkeyne hc.symm
          · exact hpre r hr2

/-- Claim C6: with deduplication enabled and a duplicate-free `seen_papers`
set, a single `apply_quality_control` call admits at most one record per
stable key (the keys of the output are pairwise distinct), keeps
`seen_papers` duplicate-free (a key is added at most once, and the
property threads through subsequent calls), and every admitted record is
the first record of the input carrying its key, that key being new to the
agent — so of two records with the same stable key at most the first is
admitted and the second is dropped. -/
theorem c6_deduplication (h : String → Int) (a : AgentState)
    (papers : List Paper) (hded : a.enable_deduplication = true)
    (hnd : a.seen_papers.Nodup) :
    ((applyQualityControl h a papers).1.map (getPaperKey h)).Nodup ∧
    (applyQualityControl h a papers).2.seen_papers.Nodup ∧
    ∀ p ∈ (applyQualityControl h a papers).1,
      getPaperKey h p ∉ a.seen_papers ∧
      ∃ pre post, papers = pre ++ p :: post ∧
        ∀ q ∈ pre, getPaperKey h q ≠ getPaperKey h p := by
  unfold applyQualityControl
  rw [hded]
  obtain ⟨⟨ks, h2⟩, hndk, ⟨added, ha1, ha2, ha3⟩⟩ :=
    qcFold_dedup h a.quality_filters papers [] a.seen_papers
  refine ⟨?_, hndk hnd, ?_⟩
  · simp only [ha1, List.nil_append]
    exact ha3
  · intro p hp
    simp only [ha1, List.nil_append] at hp
    obtain ⟨hkey, pre, post, hsplit, hpre⟩ := ha2 p hp
    exact ⟨hkey, pre, post, hsplit, hpre⟩

/-- A second record carrying the same external identifier as
`paperGood`. -/
def paperDupA : Paper :=
  { arxiv_id := some "2301.12345", doi := none
    title := "A different title for the same record"
    abstract := String.join (List.replicate 10 "zyxwvutsr ") }

/-- Claim C6, concrete instance: of two records sharing the arXiv key only
the first is admitted, and the key set stays duplicate-free. -/
theorem c6_deduplication_witness :
    (applyQualityControl (fun _ => 0)
        { enable_deduplication := true, quality_filters := [], seen_papers := []
          pipelines := [], execution_history := [], retry_attempts := 3
          max_workers := 4 } [paperGood, paperDupA]).1 = [paperGood] ∧
    (((applyQualityControl (fun _ => 0)
        { enable_deduplication := true, quality_filters := [], seen_papers := []
          pipelines := [], execution_history := [], retry_attempts := 3
          max_workers := 4 } [paperGood, paperDupA]).1.map
          (getPaperKey (fun _ => 0))).Nodup ∧
      (applyQualityControl (fun _ => 0)
        { enable_deduplication := true, quality_filters := [], seen_papers := []
          pipelines := [], execution_history := [], retry_attempts := 3
          max_workers := 4 } [paperGood, paperDupA]).2.seen_papers.Nodup ∧
      ∀ p ∈ (applyQualityControl (fun _ => 0)
        { enable_deduplication := true, quality_filters := [], seen_papers := []
          pipelines := [], execution_history := [], retry_attempts := 3
          max_workers := 4 } [paperGood, paperDupA]).1,
        getPaperKey (fun _ => 0) p ∉ ([] : List String) ∧
        ∃ pre post, [paperGood, paperDupA] = pre ++ p :: post ∧
          ∀ q ∈ pre, getPaperKey (fun _ => 0) q ≠ getPaperKey (fun _ => 0) p) :=
  ⟨by decide,
   c6_deduplication (fun _ => 0)
    { enable_deduplication := true, quality_filters := [], seen_papers := []
      pipelines := [], execution_history := [], retry_attempts := 3
      max_workers := 4 } [paperGood, paperDupA] rfl List.nodup_nil⟩

/-- Pointwise relation between task lists: the second list's task has the
same behavioural spec as the first's. -/
def SpecEq (u u' : TaskRT) : Prop := u'.spec = u.spec

theorem forall₂_specEq_same : ∀ l : List TaskRT, List.Forall₂ SpecEq l l := by
  intro l
  induction l with
  | nil => exact .nil
  | cons t rest ih => exact .cons rfl ih

theorem forall₂_specEq_updateFirst {id : String} {f : TaskRT → TaskRT}
    (hf : ∀ u, (f u).spec = u.spec) :
    ∀ ts : List TaskRT, List.Forall₂ SpecEq ts (updateFirst ts id f) := by
  intro ts
  induction ts with
  | nil => exact .nil
  | cons t rest ih =>
    rw [updateFirst]
    split
    · exact .cons (hf t) (forall₂_specEq_same rest)
    · exact .cons rfl ih

theorem forall₂_specEq_trans {l m r : List TaskRT}
    (h1 : List.Forall₂ SpecEq l m) (h2 : List.Forall₂ SpecEq m r) :
    List.Forall₂ SpecEq l r := by
  induction h1 generalizing r with
  | nil => cases h2; exact .nil
  | cons h t ih =>
    cases h2 with
    | cons h2a h2b => exact .cons (h2a.trans h) (ih h2b)

theorem map_spec_updateFirst {id : String} {f : TaskRT → TaskRT}
    (hf : ∀ u, (f u).spec = u.spec) :
    ∀ ts : List TaskRT,
      (updateFirst ts id f).map (fun u => u.spec) =
        ts.map (fun u => u.spec) := by
  intro ts
  induction ts with
  | nil => rfl
  | cons t rest ih =>
    rw [updateFirst]
    split
    · simp only [List.map_cons, hf t]
    · simp only [List.map_cons, ih]

theorem specs_preserved_submitTask {st : PipeState} {t : TaskRT}
    (hcb : st.hasAgentCallback = false) :
    (submitTask st t).tasks.map (fun u => u.spec) =
        st.tasks.map (fun u => u.spec) ∧
      (submitTask st t).hasAgentCallback = false := by
  unfold submitTask
  split
  · cases hres : t.spec.execFn t.spec.papers st.context with
    | ok v =>
      constructor
      · simp only [runBody, hres, hcb, if_false, Bool.false_eq_true]
        rw [map_spec_updateFirst
            (f := fun u => { u with status := TaskStatus.completed, result := some v })
            (fun u => rfl),
          map_spec_updateFirst
            (f := fun u => { u with status := TaskStatus.running })
            (fun u => rfl)]
      · simp only [runBody, hres]
        exact hcb
    | error m =>
      constructor
      · simp only [runBody, hres]
        rw [map_spec_updateFirst
            (f := fun u => { u with status := TaskStatus.failed, errorMessage := some m })
            (fun u => rfl),
          map_spec_updateFirst
            (f := fun u => { u with status := TaskStatus.running })
            (fun u => rfl)]
      · simp only [runBody, hres]
        exact hcb
  · exact ⟨map_spec_updateFirst
      (f := fun u => { u with status := TaskStatus.failed
                              errorMessage := some ("Task " ++ t.spec.task_id ++
                                " validation failed") })
      (fun u => rfl) st.tasks, hcb⟩

theorem specs_preserved_submitStep (cfg : PipeConfig) (id : String)
    {st : PipeState} (hcb : st.hasAgentCallback = false) :
    (submitStep cfg st id).tasks.map (fun u => u.spec) =
        st.tasks.map (fun u => u.spec) ∧
      (submitStep cfg st id).hasAgentCallback = false := by
  unfold submitStep
  split
  · split
    · exact specs_preserved_submitTask hcb
    · exact ⟨rfl, hcb⟩
  · exact ⟨rfl, hcb⟩

theorem specs_preserved_submitPhase (cfg : PipeConfig) :
    ∀ (ids : List String) (st : PipeState), st.hasAgentCallback = false →
      (submitPhase cfg st ids).tasks.map (fun u => u.spec) =
          st.tasks.map (fun u => u.spec) ∧
        (submitPhase cfg st ids).hasAgentCallback = false := by
  intro ids
  induction ids with
  | nil => intro st hcb; exact ⟨rfl, hcb⟩
  | cons id rest ih =>
    intro st hcb
    obtain ⟨h1, h2⟩ := specs_preserved_submitStep cfg id hcb
    obtain ⟨h3, h4⟩ := ih (submitStep cfg st id) h2
    have hstep : submitPhase cfg st (id :: rest) =
        submitPhase cfg (submitStep cfg st id) rest := rfl
    exact ⟨by rw [hstep, h3, h1], by rw [hstep]; exact h4⟩

theorem tasks_preserved_handleCompleted (st : PipeState) (id : String) :
    (handleCompleted st id).tasks = st.tasks ∧
      (handleCompleted st id).hasAgentCallback = st.hasAgentCallback := by
  unfold handleCompleted
  cases lookup st.futures id with
  | none => exact ⟨rfl, rfl⟩
  | some res =>
    cases st.tasks.find? (fun u => u.spec.task_id == id) with
    | none => exact ⟨rfl, rfl⟩
    | some t =>
      cases res with
      | ok v => exact ⟨rfl, rfl⟩
      | error m => exact ⟨rfl, rfl⟩

theorem tasks_preserved_handleFold :
    ∀ (ids : List String) (st : PipeState),
      (ids.foldl handleCompleted st).tasks = st.tasks ∧
        (ids.foldl handleCompleted st).hasAgentCallback =
          st.hasAgentCallback := by
  intro ids
  induction ids with
  | nil => intro st; exact ⟨rfl, rfl⟩
  | cons id rest ih =>
    intro st
    obtain ⟨h1, h2⟩ := tasks_preserved_handleCompleted st id
    obtain ⟨h3, h4⟩ := ih (handleCompleted st id)
    exact ⟨by rw [List.foldl_cons, h3, h1], by rw [List.foldl_cons, h4, h2]⟩

theorem specs_preserved_loopIter (cfg : PipeConfig) (sd : Option (List String))
    (st : PipeState) (hcb : st.hasAgentCallback = false) :
    (loopIter cfg sd st).state.tasks.map (fun u => u.spec) =
        st.tasks.map (fun u => u.spec) ∧
      (loopIter cfg sd st).state.hasAgentCallback = false := by
  unfold loopIter
  by_cases hready : (readyIds st).isEmpty = true
  · rw [if_pos hready]
    by_cases hrem : (st.tasks.filter
        (fun t => !(decide (t.spec.task_id ∈ st.completedIds)))).isEmpty = true
    · rw [if_pos hrem]; exact ⟨rfl, hcb⟩
    · rw [if_neg hrem]
      by_cases hfut : st.futures.isEmpty = true
      · rw [if_pos hfut]; exact ⟨rfl, hcb⟩
      · rw [if_neg hfut]
        obtain ⟨h1, h2⟩ := tasks_preserved_handleFold (pollDone sd st.futures) st
        exact ⟨by simp only [StepOut.state]; rw [h1], by
          simp only [StepOut.state]; rw [h2]; exact hcb⟩
  · rw [if_neg hready]
    obtain ⟨h1, h2⟩ := specs_preserved_submitPhase cfg (readyIds st) st hcb
    obtain ⟨h3, h4⟩ := tasks_preserved_handleFold
      (pollDone sd (submitPhase cfg st (readyIds st)).futures)
      (submitPhase cfg st (readyIds st))
    refine ⟨?_, ?_⟩
    · simp only [StepOut.state]
      rw [h3, h1]
    · simp only [StepOut.state]
      rw [h4]
      exact h2

theorem specs_preserved_runLoop (cfg : PipeConfig) :
    ∀ (fuel : Nat) (sched : List (List String)) (st : PipeState),
      st.hasAgentCallback = false →
      (runLoop cfg fuel sched st).state.tasks.map (fun u => u.spec) =
        st.tasks.map (fun u => u.spec) := by
  intro fuel
  induction fuel with
  | zero => intro sched st _; rfl
  | succ n ih =>
    intro sched st hcb
    show (RunResult.state
      (if st.tasks.length ≤ st.completedIds.length then RunResult.done st
       else match loopIter cfg sched.head? st with
            | .next st1 => runLoop cfg n (sched.drop 1) st1
            | .deadlockStop st1 => RunResult.deadlock st1)).tasks.map
        (fun u => u.spec) = st.tasks.map (fun u => u.spec)
    by_cases hc : st.tasks.length ≤ st.completedIds.length
    · rw [if_pos hc]
      rfl
    · rw [if_neg hc]
      obtain ⟨h1, h2⟩ := specs_preserved_loopIter cfg sched.head? st hcb
      cases hit : loopIter cfg sched.head? st with
      | next st1 =>
        rw [hit] at h1 h2
        simp only [StepOut.state] at h1 h2
        rw [ih (sched.drop 1) st1 h2, h1]
      | deadlockStop st1 =>
        rw [hit] at h1
        simpa only [StepOut.state, RunResult.state] using h1

theorem papers_preserved_runLoop (cfg : PipeConfig) (fuel : Nat)
    (sched : List (List String)) (st : PipeState)
    (hcb : st.hasAgentCallback = false) :
    (runLoop cfg fuel sched st).state.tasks.map (fun u => u.spec.papers) =
      st.tasks.map (fun u => u.spec.papers) := by
  have h := specs_preserved_runLoop cfg fuel sched st hcb
  have h2 : ∀ ts ts' : List TaskRT,
      ts'.map (fun u => u.spec) = ts.map (fun u => u.spec) →
      ts'.map (fun u => u.spec.papers) = ts.map (fun u => u.spec.papers) := by
    intro ts ts' hts
    have : (ts'.map (fun u => u.spec)).map (fun s => s.papers) =
        (ts.map (fun u => u.spec)).map (fun s => s.papers) := by rw [hts]
    simpa [List.map_map, Function.comp] using this
  exact h2 st.tasks (runLoop cfg fuel sched st).state.tasks h

/-- What the agent's completion callback does to each task, relative to
its pre-callback state, when a crawl task completes with the record list
`ps`: `ParseTask`/`TagTask`/`StoreTask` objects with an empty `papers`
list receive `ps`, every other task keeps its `papers` list; ids and
kinds are untouched. -/
def papersRule (ps : List Paper) (u u' : TaskRT) : Prop :=
  u'.spec.task_id = u.spec.task_id ∧ u'.spec.kind = u.spec.kind ∧
  ((u.spec.kind = .parse ∨ u.spec.kind = .tag ∨ u.spec.kind = .store) →
    (u.spec.papers = [] → u'.spec.papers = ps) ∧
    (u.spec.papers ≠ [] → u'.spec.papers = u.spec.papers)) ∧
  (¬(u.spec.kind = .parse ∨ u.spec.kind = .tag ∨ u.spec.kind = .store) →
    u'.spec.papers = u.spec.papers)

/-- Claim C10: (a) when a crawl-kind task's body completes with a list of
records inside a pipeline carrying the agent callback, the resulting task
list satisfies `papersRule` pointwise against the pre-step task list —
every parse/tag/store task whose `papers` was empty receives the crawled
list, every other task keeps its `papers`; and (b) without the agent
callback the scheduler itself never changes any task's `papers` field over
an entire run, so the callback is the only mechanism moving crawled
records into downstream stage tasks. -/
theorem c10_crawl_result_propagation (st : PipeState) (t : TaskRT)
    (ps : List Paper) (hkind : t.spec.kind = .crawl)
    (hres : t.spec.execFn t.spec.papers st.context = .ok (.papers ps))
    (hcb : st.hasAgentCallback = true) :
    List.Forall₂ (papersRule ps) st.tasks (runBody st t).tasks ∧
    (∀ (cfg : PipeConfig) (fuel : Nat) (sched : List (List String))
      (st1 : PipeState), st1.hasAgentCallback = false →
      (runLoop cfg fuel sched st1).state.tasks.map (fun u => u.spec.papers) =
        st1.tasks.map (fun u => u.spec.papers)) := by
  constructor
  · have htasks : (runBody st t).tasks =
        onTaskComplete
          (updateFirst
            (updateFirst st.tasks t.spec.task_id
              (fun u => { u with status := .running }))
            t.spec.task_id
            (fun u => { u with status := .completed, result := some (Val.papers ps) }))
          t.spec (Val.papers ps) := by
      simp [runBody, hres, hcb]
    rw [htasks]
    have h2 : List.Forall₂ SpecEq st.tasks
        (updateFirst
          (updateFirst st.tasks t.spec.task_id
            (fun u => { u with status := .running }))
          t.spec.task_id
          (fun u => { u with status := .completed, result := some (Val.papers ps) })) :=
      forall₂_specEq_trans
        (forall₂_specEq_updateFirst
          (f := fun u => { u with status := TaskStatus.running })
          (fun u => rfl) st.tasks)
        (forall₂_specEq_updateFirst
          (f := fun u => { u with status := TaskStatus.completed
                                  result := some (Val.papers ps) })
          (fun u => rfl) _)
    have hmap : onTaskComplete
        (updateFirst
          (updateFirst st.tasks t.spec.task_id
            (fun u => { u with status := .running }))
          t.spec.task_id
          (fun u => { u with status := .completed, result := some (Val.papers ps) }))
        t.spec (Val.papers ps) =
        (updateFirst
          (updateFirst st.tasks t.spec.task_id
            (fun u => { u with status := .running }))
          t.spec.task_id
          (fun u => { u with status := .completed, result := some (Val.papers ps) })).map
        (fun u =>
          if u.spec.kind == .parse || u.spec.kind == .tag || u.spec.kind == .store then
            if u.spec.papers.isEmpty then
              { u with spec := { u.spec with papers := ps } }
            else u
          else u) := by
      unfold onTaskComplete
      rw [hkind]
    rw [hmap, List.forall₂_map_right_iff]
    refine h2.imp ?_
    intro u u2 hspec
    by_cases hstage : u.spec.kind = .parse ∨ u.spec.kind = .tag ∨ u.spec.kind = .store
    · have hguard : (u2.spec.kind == TaskKind.parse || u2.spec.kind == TaskKind.tag ||
          u2.spec.kind == TaskKind.store) = true := by
        rw [hspec]
        rcases hstage with hk | hk | hk <;> rw [hk] <;> rfl
      rw [if_pos hguard]
      by_cases hemp : u.spec.papers = []
      · have hemp2 : u2.spec.papers.isEmpty = true := by
          rw [hspec, hemp]; rfl
        rw [if_pos hemp2]
        refine ⟨by rw [hspec], by rw [hspec], ?_, ?_⟩
        · intro _
          exact ⟨fun _ => rfl, fun hne => absurd hemp hne⟩
        · intro hns
          exact absurd hstage hns
      · have hemp2 : ¬u2.spec.papers.isEmpty = true := by
          rw [hspec]
          simpa [List.isEmpty_iff] using hemp
        rw [if_neg hemp2]
        refine ⟨by rw [hspec], by rw [hspec], ?_, ?_⟩
        · intro _
          exact ⟨fun he => absurd he hemp, fun _ => by rw [hspec]⟩
        · intro hns
          exact absurd hstage hns
    · have hguard : ¬((u2.spec.kind == TaskKind.parse || u2.spec.kind == TaskKind.tag ||
          u2.spec.kind == TaskKind.store) = true) := by
        rw [hspec]
        simp only [Bool.or_eq_true, beq_iff_eq]
        intro hc
        rcases hc with hc | hc
        · rcases hc with hc | hc
          · exact hstage (Or.inl hc)
          · exact hstage (Or.inr (Or.inl hc))
        · exact hstage (Or.inr (Or.inr hc))
      rw [if_neg hguard]
      refine ⟨by rw [hspec], by rw [hspec], ?_, fun _ => by rw [hspec]⟩
      intro hs
      exact absurd hs hstage
  · intro cfg fuel sched st1 hcb1
    exact papers_preserved_runLoop cfg fuel sched st1 hcb1

/-- A crawl-kind task returning one record, used by the callback
scenario. -/
def crawlW : WTask :=
  { task_id := "C", kind := .crawl, papers := []
    validateFn := fun _ => true
    execFn := fun _ _ => .ok (.papers [paperGood]) }

/-- A parse-kind task with an initially empty `papers` list. -/
def parseW : WTask :=
  { task_id := "P", kind := .parse, papers := []
    validateFn := fun ps => !ps.isEmpty
    execFn := fun ps _ => .ok (.papers ps) }

/-- The crawl-then-parse pipeline state with the agent callback
installed. -/
def stateCrawl : PipeState :=
  { tasks := [TaskRT.fresh crawlW, TaskRT.fresh parseW]
    dependencies := [("P", ["C"])], context := [], results := []
    futures := [], completedIds := [], executingIds := []
    hasAgentCallback := true, events := [] }

/-- Claim C10, concrete instance: completing the crawl task fills the
empty parse task with the crawled records. -/
theorem c10_crawl_result_propagation_witness :
    List.Forall₂ (papersRule [paperGood]) stateCrawl.tasks
        (runBody stateCrawl (TaskRT.fresh crawlW)).tasks ∧
    (∀ (cfg : PipeConfig) (fuel : Nat) (sched : List (List String))
      (st1 : PipeState), st1.hasAgentCallback = false →
      (runLoop cfg fuel sched st1).state.tasks.map (fun u => u.spec.papers) =
        st1.tasks.map (fun u => u.spec.papers)) :=
  c10_crawl_result_propagation stateCrawl (TaskRT.fresh crawlW) [paperGood]
    rfl rfl rfl

/-- Claim C5, concrete instance: in the successful two-task pipeline where
T2 depends on T1, every start of T2 in the trace is preceded by a
completion of T1. -/
theorem c5_dependency_ordering_witness :
    startAfterComplete "T1" "T2"
      ((Pipeline.execute 3 []
        { name := "p", cfg := cfgDefault, state := stateXY,
          pstatus := "initialized" }).2.state.events) :=
  c5_dependency_ordering
    { name := "p", cfg := cfgDefault, state := stateXY, pstatus := "initialized" }
    "T1" "T2" 3 [] (by decide)

theorem lookup_cons_self {α : Type} (k : String) (v : α) (m : List (String × α)) :
    lookup ((k, v) :: m) k = some v := by
  unfold lookup
  rw [List.find?_cons_of_pos _ (by simp)]
  rfl

theorem find?_key_eq_none {α : Type} {m : List (String × α)} {k : String}
    (h : k ∉ m.map Prod.fst) :
    m.find? (fun kv => kv.1 == k) = none := by
  rw [List.find?_eq_none]
  intro kv hkv
  simp only [beq_iff_eq]
  intro hc
  exact h (hc ▸ List.mem_map_of_mem Prod.fst hkv)

theorem setKey_append {α : Type} {m : List (String × α)} {k : String} {v : α}
    (h : k ∉ m.map Prod.fst) : setKey m k v = m ++ [(k, v)] := by
  unfold setKey
  rw [find?_key_eq_none h]
  simp

theorem removeKey_cons_self {α : Type} {m : List (String × α)} {k : String}
    {v : α} (h : k ∉ m.map Prod.fst) :
    removeKey ((k, v) :: m) k = m := by
  unfold removeKey
  rw [List.filter_cons]
  have hk : ((k, v).1 != k) = false := by simp
  rw [hk]
  simp only [Bool.false_eq_true, if_false]
  rw [List.filter_eq_self]
  intro kv hkv
  simp only [bne_iff_ne, ne_eq, decide_eq_true_eq]
  intro hc
  exact h (hc ▸ List.mem_map_of_mem Prod.fst hkv)

theorem setInsert_of_not_mem {s : List String} {x : String} (h : x ∉ s) :
    setInsert s x = s ++ [x] := by
  unfold setInsert
  rw [if_neg h]

theorem setDiscard_cons_self {rest : List String} {x : String} (h : x ∉ rest) :
    setDiscard (x :: rest) x = rest := by
  unfold setDiscard
  rw [List.filter_cons]
  have hx : (x != x) = false := by simp
  rw [hx]
  simp only [Bool.false_eq_true, if_false]
  rw [List.filter_eq_self]
  intro y hy
  simp only [bne_iff_ne, ne_eq, decide_eq_true_eq]
  intro hc
  exact h (hc ▸ hy)

theorem find?_append_some {α : Type} {p : α → Bool} {l1 l2 : List α} {a : α}
    (h : l1.find? p = some a) : (l1 ++ l2).find? p = some a := by
  induction l1 with
  | nil => simp [List.find?] at h
  | cons x rest ih =>
    rw [List.cons_append]
    cases hx : p x with
    | true =>
      rw [List.find?_cons_of_pos _ hx]
      rw [List.find?_cons_of_pos _ hx] at h
      exact h
    | false =>
      rw [List.find?_cons_of_neg _ (by simp [hx])]
      rw [List.find?_cons_of_neg _ (by simp [hx])] at h
      exact ih h

theorem find?_append_none {α : Type} {p : α → Bool} {l1 l2 : List α}
    (h : l1.find? p = none) : (l1 ++ l2).find? p = l2.find? p := by
  induction l1 with
  | nil => rfl
  | cons x rest ih =>
    rw [List.cons_append]
    cases hx : p x with
    | true =>
      rw [List.find?_cons_of_pos _ hx] at h
      cases h
    | false =>
      rw [List.find?_cons_of_neg _ (by simp [hx])]
      rw [List.find?_cons_of_neg _ (by simp [hx])] at h
      exact ih h

theorem lookup_append_some {α : Type} {m m2 : List (String × α)} {k : String}
    {v : α} (h : lookup m k = some v) : lookup (m ++ m2) k = some v := by
  unfold lookup at *
  cases hf : m.find? (fun kv => kv.1 == k) with
  | none => rw [hf] at h; cases h
  | some kv =>
    rw [hf] at h
    rw [find?_append_some hf]
    exact h

theorem lookup_append_fresh {α : Type} {m : List (String × α)} {k : String}
    {v : α} (h : k ∉ m.map Prod.fst) :
    lookup (m ++ [(k, v)]) k = some v := by
  unfold lookup
  rw [find?_append_none (find?_key_eq_none h)]
  rw [List.find?_cons_of_pos _ (by simp)]
  rfl

/-- The relation between a task object before and after scheduler-side
mutation: the id and the behaviour functions are untouched (only status,
error, result, and — through the agent callback — the `papers` field may
change). -/
def TRel (t u : TaskRT) : Prop :=
  u.spec.task_id = t.spec.task_id ∧
  u.spec.validateFn = t.spec.validateFn ∧
  u.spec.execFn = t.spec.execFn

theorem trel_same : ∀ l : List TaskRT, List.Forall₂ TRel l l := by
  intro l
  induction l with
  | nil => exact .nil
  | cons t rest ih => exact .cons ⟨rfl, rfl, rfl⟩ ih

theorem trel_trans {l m r : List TaskRT} (h1 : List.Forall₂ TRel l m)
    (h2 : List.Forall₂ TRel m r) : List.Forall₂ TRel l r := by
  induction h1 generalizing r with
  | nil => cases h2; exact .nil
  | cons h t ih =>
    cases h2 with
    | cons h2a h2b =>
      exact .cons ⟨h2a.1.trans h.1, h2a.2.1.trans h.2.1, h2a.2.2.trans h.2.2⟩
        (ih h2b)

theorem trel_of_specEq {l m : List TaskRT} (h : List.Forall₂ SpecEq l m) :
    List.Forall₂ TRel l m := by
  refine h.imp ?_
  intro t u hs
  exact ⟨by rw [hs], by rw [hs], by rw [hs]⟩

theorem trel_updateFirst {id : String} {f : TaskRT → TaskRT}
    (hf : ∀ u, (f u).spec = u.spec) (ts : List TaskRT) :
    List.Forall₂ TRel ts (updateFirst ts id f) :=
  trel_of_specEq (forall₂_specEq_updateFirst hf ts)

theorem trel_onTaskComplete (ts : List TaskRT) (w : WTask) (v : Val) :
    List.Forall₂ TRel ts (onTaskComplete ts w v) := by
  unfold onTaskComplete
  split
  · rw [List.forall₂_map_right_iff]
    refine (trel_same ts).imp ?_
    intro t u htu
    split
    · split
      · exact ⟨htu.1, htu.2.1, htu.2.2⟩
      · exact htu
    · exact htu
  · exact trel_same ts

theorem trel_map_ids {l m : List TaskRT} (h : List.Forall₂ TRel l m) :
    m.map (fun t => t.spec.task_id) = l.map (fun t => t.spec.task_id) := by
  induction h with
  | nil => rfl
  | cons hr hrest ih =>
    simp only [List.map_cons, ih, hr.1]

theorem trel_find {l m : List TaskRT} (h : List.Forall₂ TRel l m) {id : String}
    (hid : id ∈ l.map (fun t => t.spec.task_id)) :
    ∃ t, t ∈ l ∧ t.spec.task_id = id ∧
      ∃ u, m.find? (fun u => u.spec.task_id == id) = some u ∧ TRel t u := by
  induction h with
  | nil => simp at hid
  | cons hr hrest ih =>
    rename_i t u l1 m1
    by_cases hm : u.spec.task_id = id
    · exact ⟨t, List.mem_cons_self t l1, by rw [← hr.1, hm],
        u, List.find?_cons_of_pos _ (by simpa using hm), hr⟩
    · have hne : t.spec.task_id ≠ id := by rw [← hr.1]; exact hm
      rcases List.mem_map.mp hid with ⟨w, hw, hwe⟩
      rcases List.mem_cons.mp hw with rfl | hw2
      · exact absurd hwe hne
      · obtain ⟨t2, ht2, hid2, u2, hu2, hrel2⟩ :=
          ih (List.mem_map.mpr ⟨w, hw2, hwe⟩)
        exact ⟨t2, List.mem_cons_of_mem t ht2, hid2, u2,
          by rw [List.find?_cons_of_neg _ (by simpa using hm)]; exact hu2, hrel2⟩

/-- Whether a candidate execution order is topological for the dependency
map: every id's dependency list is contained in the ids already placed
before it. -/
def topoOk (deps : List (String × List String)) :
    List String → List String → Bool
  | _, [] => true
  | done, id :: rest =>
    (depsOf deps id).all (fun d => decide (d ∈ done)) &&
      topoOk deps (done ++ [id]) rest

theorem runBody_success {st : PipeState} {u : TaskRT} {v : Val}
    (hexec : u.spec.execFn u.spec.papers st.context = Except.ok v) :
    List.Forall₂ TRel st.tasks (runBody st u).tasks ∧
    (runBody st u).futures = setKey st.futures u.spec.task_id (Except.ok v) ∧
    (runBody st u).completedIds = st.completedIds ∧
    (runBody st u).results = st.results ∧
    (runBody st u).context = st.context ∧
    (runBody st u).dependencies = st.dependencies ∧
    (runBody st u).executingIds = st.executingIds := by
  refine ⟨?_, by simp [runBody, hexec], by simp [runBody, hexec],
    by simp [runBody, hexec], by simp [runBody, hexec],
    by simp [runBody, hexec], by simp [runBody, hexec]⟩
  simp only [runBody, hexec]
  have hupd : List.Forall₂ TRel st.tasks
      (updateFirst
        (updateFirst st.tasks u.spec.task_id
          (fun w => { w with status := .running }))
        u.spec.task_id
        (fun w => { w with status := .completed, result := some v })) :=
    trel_trans
      (trel_updateFirst (f := fun w => { w with status := TaskStatus.running })
        (fun w => rfl) st.tasks)
      (trel_updateFirst
        (f := fun w => { w with status := TaskStatus.completed, result := some v })
        (fun w => rfl) _)
  by_cases hcb : st.hasAgentCallback = true
  · rw [if_pos hcb]
    exact trel_trans hupd (trel_onTaskComplete _ u.spec v)
  · rw [if_neg hcb]
    exact hupd

theorem submit_fold_success (p0 : List TaskRT) (ctx0 : Ctx) (vmap : String → Val)
    (HV0 : ∀ t ∈ p0, ∀ ps, t.spec.validateFn ps = true)
    (HE0 : ∀ t ∈ p0, ∀ ps, t.spec.execFn ps ctx0 = Except.ok (vmap t.spec.task_id))
    (cfg : PipeConfig) :
    ∀ (rs : List String) (st : PipeState) (sub : List String),
      List.Forall₂ TRel p0 st.tasks → st.context = ctx0 →
      st.executingIds = sub →
      st.futures = sub.map (fun id => (id, Except.ok (vmap id))) →
      (∀ id ∈ rs, id ∈ p0.map (fun t => t.spec.task_id)) →
      (∀ id ∈ rs, id ∉ sub) → rs.Nodup →
      ∃ sub2, sub2.Sublist rs ∧
        (rs ≠ [] → sub.length < cfg.maxWorkers → sub2 ≠ []) ∧
        List.Forall₂ TRel p0 (submitPhase cfg st rs).tasks ∧
        (submitPhase cfg st rs).context = ctx0 ∧
        (submitPhase cfg st rs).dependencies = st.dependencies ∧
        (submitPhase cfg st rs).executingIds = sub ++ sub2 ∧
        (submitPhase cfg st rs).futures =
          (sub ++ sub2).map (fun id => (id, Except.ok (vmap id))) ∧
        (submitPhase cfg st rs).completedIds = st.completedIds ∧
        (submitPhase cfg st rs).results = st.results := by
  intro rs
  induction rs with
  | nil =>
    intro st sub hrel hctx hex hfut _ _ _
    exact ⟨[], List.nil_sublist _, fun h _ => absurd rfl h, hrel, hctx, rfl,
      by rw [List.append_nil]; exact hex,
      by rw [List.append_nil]; exact hfut, rfl, rfl⟩
  | cons id rs2 ih =>
    intro st sub hrel hctx hex hfut hids hnot hnd
    have hstep : submitPhase cfg st (id :: rs2) =
        submitPhase cfg (submitStep cfg st id) rs2 := rfl
    by_cases hcap : st.executingIds.length < cfg.maxWorkers
    · obtain ⟨t, ht, htid, u, hu, hrelu⟩ :=
        trel_find hrel (hids id (List.mem_cons_self id rs2))
      have huid : u.spec.task_id = id := by rw [hrelu.1, htid]
      have hval : u.spec.validateFn u.spec.papers = true := by
        rw [hrelu.2.1]
        exact HV0 t ht u.spec.papers
      have hexec : u.spec.execFn u.spec.papers st.context =
          Except.ok (vmap id) := by
        rw [hrelu.2.2, hctx, ← htid]
        exact HE0 t ht u.spec.papers
      have hidnotsub : id ∉ sub := hnot id (List.mem_cons_self id rs2)
      have hsubmit0 : submitStep cfg st id =
          { submitTask st u with
              executingIds := setInsert (submitTask st u).executingIds id } := by
        unfold submitStep
        rw [if_pos hcap, hu]
      have hsubmit1 : submitTask st u = runBody st u := by
        unfold submitTask
        rw [if_pos hval]
      have hsubmit : submitStep cfg st id =
          { runBody st u with
              executingIds := setInsert (runBody st u).executingIds id } := by
        rw [hsubmit0, hsubmit1]
      obtain ⟨hrb1, hrb2, hrb3, hrb4, hrb5, hrb6, hrb7⟩ := runBody_success hexec
      have hkeys : (sub.map (fun id =>
          (id, (Except.ok (vmap id) : Except String Val)))).map Prod.fst = sub := by
        rw [List.map_map]
        exact List.map_id sub
      have hfut1 : (submitStep cfg st id).futures =
          (sub ++ [id]).map (fun id => (id, Except.ok (vmap id))) := by
        rw [hsubmit]
        show (runBody st u).futures = _
        rw [hrb2, huid, hfut, setKey_append (by rw [hkeys]; exact hidnotsub)]
        rw [List.map_append]
        rfl
      have hex1 : (submitStep cfg st id).executingIds = sub ++ [id] := by
        rw [hsubmit]
        show setInsert (runBody st u).executingIds id = _
        rw [hrb7, hex, setInsert_of_not_mem hidnotsub]
      have hrel1 : List.Forall₂ TRel p0 (submitStep cfg st id).tasks := by
        rw [hsubmit]
        exact trel_trans hrel hrb1
      have hctx1 : (submitStep cfg st id).context = ctx0 := by
        rw [hsubmit]
        show (runBody st u).context = ctx0
        rw [hrb5, hctx]
      have hdep1 : (submitStep cfg st id).dependencies = st.dependencies := by
        rw [hsubmit]
        exact hrb6
      have hco1 : (submitStep cfg st id).completedIds = st.completedIds := by
        rw [hsubmit]
        exact hrb3
      have hre1 : (submitStep cfg st id).results = st.results := by
        rw [hsubmit]
        exact hrb4
      have hnod2 : rs2.Nodup := (List.nodup_cons.mp hnd).2
      have hidnotrs2 : id ∉ rs2 := (List.nodup_cons.mp hnd).1
      obtain ⟨sub2, hsl, _, h1, h2, h3, h4, h5, h6, h7⟩ :=
        ih (submitStep cfg st id) (sub ++ [id]) hrel1 hctx1 hex1 hfut1
          (fun i hi => hids i (List.mem_cons_of_mem id hi))
          (by
            intro i hi hmem
            rcases List.mem_append.mp hmem with hm1 | hm2
            · exact hnot i (List.mem_cons_of_mem id hi) hm1
            · rw [List.mem_singleton.mp hm2] at hi
              exact hidnotrs2 hi)
          hnod2
      refine ⟨id :: sub2, List.Sublist.cons₂ id hsl,
        fun _ _ => by simp, ?_, ?_, ?_, ?_, ?_, ?_, ?_⟩
      · rw [hstep]; exact h1
      · rw [hstep]; exact h2
      · rw [hstep, h3, hdep1]
      · rw [hstep, h4, List.append_assoc]; rfl
      · rw [hstep, h5, List.append_assoc]; rfl
      · rw [hstep, h6, hco1]
      · rw [hstep, h7, hre1]
    · have hskip : submitStep cfg st id = st := by
        unfold submitStep
        rw [if_neg hcap]
      have hnod2 : rs2.Nodup := (List.nodup_cons.mp hnd).2
      obtain ⟨sub2, hsl, _, h1, h2, h3, h4, h5, h6, h7⟩ :=
        ih (submitStep cfg st id) sub (by rw [hskip]; exact hrel)
          (by rw [hskip]; exact hctx) (by rw [hskip]; exact hex)
          (by rw [hskip]; exact hfut)
          (fun i hi => hids i (List.mem_cons_of_mem id hi))
          (fun i hi => hnot i (List.mem_cons_of_mem id hi)) hnod2
      refine ⟨sub2, List.Sublist.cons id hsl, ?_, ?_, ?_, ?_, ?_, ?_, ?_, ?_⟩
      · intro _ hlt
        exact absurd (by rw [hex]; exact hlt) hcap
      · rw [hstep]; exact h1
      · rw [hstep]; exact h2
      · rw [hstep, h3, hskip]
      · rw [hstep]; exact h4
      · rw [hstep]; exact h5
      · rw [hstep, h6, hskip]
      · rw [hstep, h7, hskip]

theorem handle_fold_success (p0 : List TaskRT) (ctx0 : Ctx) (vmap : String → Val) :
    ∀ (sub : List String) (st : PipeState),
      List.Forall₂ TRel p0 st.tasks → st.context = ctx0 →
      st.executingIds = sub →
      st.futures = sub.map (fun id => (id, Except.ok (vmap id))) →
      sub.Nodup →
      (∀ id ∈ sub, id ∈ p0.map (fun t => t.spec.task_id)) →
      (∀ id ∈ sub, id ∉ st.completedIds) →
      st.completedIds.Nodup →
      st.results.map Prod.fst = st.completedIds →
      (∀ id ∈ st.completedIds, lookup st.results id = some (vmap id)) →
      List.Forall₂ TRel p0 (sub.foldl handleCompleted st).tasks ∧
        (sub.foldl handleCompleted st).context = ctx0 ∧
        (sub.foldl handleCompleted st).dependencies = st.dependencies ∧
        (sub.foldl handleCompleted st).executingIds = [] ∧
        (sub.foldl handleCompleted st).futures = [] ∧
        (sub.foldl handleCompleted st).completedIds = st.completedIds ++ sub ∧
        (sub.foldl handleCompleted st).completedIds.Nodup ∧
        (sub.foldl handleCompleted st).results.map Prod.fst =
          (sub.foldl handleCompleted st).completedIds ∧
        (∀ id ∈ (sub.foldl handleCompleted st).completedIds,
          lookup (sub.foldl handleCompleted st).results id = some (vmap id)) := by
  intro sub
  induction sub with
  | nil =>
    intro st hrel hctx hex hfut _ _ _ hcnd hrk hrv
    refine ⟨hrel, hctx, rfl, ?_, ?_, ?_, hcnd, hrk, hrv⟩
    · show st.executingIds = []
      exact hex
    · show st.futures = []
      rw [hfut]
      rfl
    · show st.completedIds = st.completedIds ++ []
      rw [List.append_nil]
  | cons id rest ih =>
    intro st hrel hctx hex hfut hnd hids hnotc hcnd hrk hrv
    have hidrest : id ∉ rest := (List.nodup_cons.mp hnd).1
    have hndrest : rest.Nodup := (List.nodup_cons.mp hnd).2
    have hkeysrest : ((rest.map (fun id =>
        (id, (Except.ok (vmap id) : Except String Val)))).map Prod.fst) = rest := by
      rw [List.map_map]
      exact List.map_id rest
    have hrestkeys : id ∉ (rest.map (fun id =>
        (id, (Except.ok (vmap id) : Except String Val)))).map Prod.fst := by
      rw [hkeysrest]
      exact hidrest
    have hlook : lookup st.futures id = some (Except.ok (vmap id)) := by
      rw [hfut]
      exact lookup_cons_self id _ _
    obtain ⟨t, ht, htid, u, hu, hrelu⟩ :=
      trel_find hrel (hids id (List.mem_cons_self id rest))
    have hidnotc : id ∉ st.completedIds := hnotc id (List.mem_cons_self id rest)
    have hresnotid : id ∉ st.results.map Prod.fst := by
      rw [hrk]; exact hidnotc
    have hhandle : handleCompleted st id =
        { st with
            futures := removeKey st.futures id
            executingIds := setDiscard st.executingIds id
            results := setKey st.results id (vmap id)
            completedIds := setInsert st.completedIds id } := by
      unfold handleCompleted
      rw [hlook, hu]
    have hfut2 : removeKey st.futures id =
        rest.map (fun id => (id, Except.ok (vmap id))) := by
      rw [hfut]
      exact removeKey_cons_self hrestkeys
    have hex2 : setDiscard st.executingIds id = rest := by
      rw [hex]
      exact setDiscard_cons_self hidrest
    have hres2 : setKey st.results id (vmap id) =
        st.results ++ [(id, vmap id)] := setKey_append hresnotid
    have hco2 : setInsert st.completedIds id = st.completedIds ++ [id] :=
      setInsert_of_not_mem hidnotc
    have hmain := ih (handleCompleted st id)
      (by rw [hhandle]; exact hrel)
      (by rw [hhandle]; exact hctx)
      (by rw [hhandle]; exact hex2)
      (by rw [hhandle]; exact hfut2)
      hndrest
      (fun i hi => hids i (List.mem_cons_of_mem id hi))
      (by
        intro i hi hmem
        rw [hhandle] at hmem
        have hmem2 : i ∈ setInsert st.completedIds id := hmem
        rcases mem_setInsert hmem2 with hm1 | rfl
        · exact hnotc i (List.mem_cons_of_mem id hi) hm1
        · exact hidrest hi)
      (by
        rw [hhandle]
        show (setInsert st.completedIds id).Nodup
        rw [hco2, List.nodup_append]
        exact ⟨hcnd, List.nodup_singleton id, by
          intro a ha hb
          rw [List.mem_singleton.mp hb] at ha
          exact hidnotc ha⟩)
      (by
        rw [hhandle]
        show (setKey st.results id (vmap id)).map Prod.fst =
          setInsert st.completedIds id
        rw [hres2, hco2, List.map_append, hrk]
        rfl)
      (by
        intro i hi
        rw [hhandle] at hi ⊢
        have hi2 : i ∈ setInsert st.completedIds id := hi
        show lookup (setKey st.results id (vmap id)) i = some (vmap i)
        rw [hres2]
        rcases mem_setInsert hi2 with hm1 | rfl
        · exact lookup_append_some (hrv i hm1)
        · exact lookup_append_fresh hresnotid)
    obtain ⟨g1, g2, g3, g4, g5, g6, g7, g8, g9⟩ := hmain
    rw [List.foldl_cons]
    refine ⟨g1, g2, ?_, g4, g5, ?_, g7, g8, g9⟩
    · rw [g3, hhandle]
    · rw [g6, hhandle]
      show setInsert st.completedIds id ++ rest = st.completedIds ++ id :: rest
      rw [hco2, List.append_assoc]
      rfl

/-- The state of the scheduling loop at an iteration boundary on a fully
successful run: the task list is behaviourally the original one, context
and dependency map untouched, both worker-bookkeeping sets drained, and
the results map records exactly the completed ids with their execution
values. -/
structure RunInv (p0 : List TaskRT) (ctx0 : Ctx)
    (deps0 : List (String × List String)) (vmap : String → Val)
    (st : PipeState) : Prop where
  rel : List.Forall₂ TRel p0 st.tasks
  ctx : st.context = ctx0
  deps : st.dependencies = deps0
  execEmpty : st.executingIds = []
  futEmpty : st.futures = []
  compSub : ∀ id ∈ st.completedIds, id ∈ p0.map (fun t => t.spec.task_id)
  compNodup : st.completedIds.Nodup
  resKeys : st.results.map Prod.fst = st.completedIds
  resVals : ∀ id ∈ st.completedIds, lookup st.results id = some (vmap id)

theorem isEmpty_false_of_mem {α : Type} {l : List α} {x : α} (h : x ∈ l) :
    ¬(l.isEmpty = true) := by
  cases l with
  | nil => cases h
  | cons a rest => simp [List.isEmpty]

theorem readyIds_sub {st : PipeState} :
    ∀ id ∈ readyIds st, id ∈ st.tasks.map (fun t => t.spec.task_id) := by
  intro id hid
  unfold readyIds at hid
  rcases List.mem_map.mp hid with ⟨t, ht, rfl⟩
  exact List.mem_map_of_mem _ (List.mem_of_mem_filter ht)

theorem readyIds_not_completed {st : PipeState} :
    ∀ id ∈ readyIds st, id ∉ st.completedIds := by
  intro id hid
  unfold readyIds at hid
  rcases List.mem_map.mp hid with ⟨t, ht, rfl⟩
  have hp := (List.mem_filter.mp ht).2
  simp only [Bool.and_eq_true, Bool.not_eq_true', decide_eq_false_iff_not] at hp
  exact hp.1.1

theorem readyIds_nodup {st : PipeState}
    (h : (st.tasks.map (fun t => t.spec.task_id)).Nodup) :
    (readyIds st).Nodup := by
  unfold readyIds
  exact h.sublist ((List.filter_sublist st.tasks).map (fun t => t.spec.task_id))

theorem topo_scan (deps0 : List (String × List String)) (ids0 completed : List String)
    (HD : ∀ id ∈ ids0, ∀ d ∈ depsOf deps0 id, d ∈ ids0) :
    ∀ (order done : List String), topoOk deps0 done order = true →
      (∀ d ∈ done, d ∈ ids0 → d ∈ completed) →
      ∀ tid ∈ order, tid ∈ ids0 → tid ∉ completed →
      ∃ u, u ∈ ids0 ∧ u ∉ completed ∧ ∀ d ∈ depsOf deps0 u, d ∈ completed := by
  intro order
  induction order with
  | nil => intro done _ _ tid htid; cases htid
  | cons hd0 rest ih =>
    intro done htopo hdone tid htid htin htnc
    rw [topoOk, Bool.and_eq_true] at htopo
    by_cases hPh : hd0 ∈ ids0 ∧ hd0 ∉ completed
    · refine ⟨hd0, hPh.1, hPh.2, ?_⟩
      intro d hdm
      have hdin : d ∈ done := by
        have := htopo.1
        rw [List.all_eq_true] at this
        simpa using this d hdm
      exact hdone d hdin (HD hd0 hPh.1 d hdm)
    · rcases List.mem_cons.mp htid with rfl | htid2
      · exact absurd ⟨htin, htnc⟩ hPh
      · refine ih (done ++ [hd0]) htopo.2 ?_ tid htid2 htin htnc
        intro d hdm hdi
        rcases List.mem_append.mp hdm with h1 | h2
        · exact hdone d h1 hdi
        · rw [List.mem_singleton.mp h2] at hdi ⊢
          exact Classical.byContradiction fun hn => hPh ⟨hdi, hn⟩

theorem exists_ready (p0 : List TaskRT) (ctx0 : Ctx)
    (deps0 : List (String × List String)) (vmap : String → Val)
    (st : PipeState) (inv : RunInv p0 ctx0 deps0 vmap st)
    (HN0 : (p0.map (fun t => t.spec.task_id)).Nodup)
    (HD : ∀ id ∈ p0.map (fun t => t.spec.task_id),
      ∀ d ∈ depsOf deps0 id, d ∈ p0.map (fun t => t.spec.task_id))
    (HT : ∃ order, topoOk deps0 [] order = true ∧
      ∀ id ∈ p0.map (fun t => t.spec.task_id), id ∈ order)
    (hlt : ¬(st.tasks.length ≤ st.completedIds.length)) :
    ∃ u, u ∈ readyIds st := by
  have hids : st.tasks.map (fun t => t.spec.task_id) =
      p0.map (fun t => t.spec.task_id) := trel_map_ids inv.rel
  have hlen : st.tasks.length = p0.length := inv.rel.length_eq.symm
  have hex : ∃ tid ∈ p0.map (fun t => t.spec.task_id),
      tid ∉ st.completedIds := by
    by_contra hcon
    push_neg at hcon
    have hsub : (p0.map (fun t => t.spec.task_id)) ⊆ st.completedIds := hcon
    have hle := (HN0.subperm hsub).length_le
    rw [List.length_map] at hle
    exact hlt (by rw [hlen]; exact hle)
  obtain ⟨tid, htid, htnc⟩ := hex
  obtain ⟨order, horder, hmem⟩ := HT
  obtain ⟨u, hui, hunc, hudeps⟩ := topo_scan deps0 _ st.completedIds HD order []
    horder (by intro d hd; cases hd) tid (hmem tid htid) htid htnc
  rw [← hids] at hui
  rcases List.mem_map.mp hui with ⟨tu, htu, htuid⟩
  refine ⟨u, ?_⟩
  unfold readyIds
  refine List.mem_map.mpr ⟨tu, List.mem_filter.mpr ⟨htu, ?_⟩, htuid⟩
  rw [htuid]
  simp only [Bool.and_eq_true, Bool.not_eq_true', decide_eq_false_iff_not]
  refine ⟨⟨hunc, ?_⟩, ?_⟩
  · rw [inv.execEmpty]
    intro hc
    cases hc
  · unfold depsMet
    rw [List.all_eq_true]
    intro d hd
    rw [inv.deps] at hd
    simpa using hudeps d hd

theorem loopIter_success (p0 : List TaskRT) (ctx0 : Ctx)
    (deps0 : List (String × List String)) (vmap : String → Val)
    (cfg : PipeConfig)
    (HV0 : ∀ t ∈ p0, ∀ ps, t.spec.validateFn ps = true)
    (HE0 : ∀ t ∈ p0, ∀ ps, t.spec.execFn ps ctx0 = Except.ok (vmap t.spec.task_id))
    (HN0 : (p0.map (fun t => t.spec.task_id)).Nodup)
    (HD : ∀ id ∈ p0.map (fun t => t.spec.task_id),
      ∀ d ∈ depsOf deps0 id, d ∈ p0.map (fun t => t.spec.task_id))
    (HT : ∃ order, topoOk deps0 [] order = true ∧
      ∀ id ∈ p0.map (fun t => t.spec.task_id), id ∈ order)
    (HW : 1 ≤ cfg.maxWorkers)
    (st : PipeState) (inv : RunInv p0 ctx0 deps0 vmap st)
    (hlt : ¬(st.tasks.length ≤ st.completedIds.length)) :
    ∃ st2 extra, loopIter cfg none st = .next st2 ∧
      RunInv p0 ctx0 deps0 vmap st2 ∧
      st2.completedIds = st.completedIds ++ extra ∧ extra ≠ [] := by
  obtain ⟨u, hu⟩ := exists_ready p0 ctx0 deps0 vmap st inv HN0 HD HT hlt
  have hids : st.tasks.map (fun t => t.spec.task_id) =
      p0.map (fun t => t.spec.task_id) := trel_map_ids inv.rel
  have hready : ¬((readyIds st).isEmpty = true) := isEmpty_false_of_mem hu
  have hiter : loopIter cfg none st =
      .next ((pollDone none (submitPhase cfg st (readyIds st)).futures).foldl
        handleCompleted (submitPhase cfg st (readyIds st))) := by
    unfold loopIter
    rw [if_neg hready]
  obtain ⟨sub2, hsl, hne, hs1, hs2, hs3, hs4, hs5, hs6, hs7⟩ :=
    submit_fold_success p0 ctx0 vmap HV0 HE0 cfg (readyIds st) st []
      inv.rel inv.ctx inv.execEmpty (by rw [inv.futEmpty]; rfl)
      (fun i hi => by rw [← hids]; exact readyIds_sub i hi)
      (fun i _ hc => by cases hc)
      (readyIds_nodup (by rw [hids]; exact HN0))
  have hsub2ne : sub2 ≠ [] := hne (by intro hc; rw [hc] at hu; cases hu)
    (by simpa using HW)
  have hpoll : pollDone none (submitPhase cfg st (readyIds st)).futures = sub2 := by
    unfold pollDone
    rw [hs5]
    simp only [List.nil_append, List.map_map]
    exact List.map_id sub2
  have hsub2ids : ∀ i ∈ sub2, i ∈ p0.map (fun t => t.spec.task_id) := by
    intro i hi
    rw [← hids]
    exact readyIds_sub i (hsl.subset hi)
  obtain ⟨g1, g2, g3, g4, g5, g6, g7, g8, g9⟩ :=
    handle_fold_success p0 ctx0 vmap sub2 (submitPhase cfg st (readyIds st))
      hs1 hs2 (by rw [hs4]; rfl) (by rw [hs5]; rfl)
      (hsl.nodup (readyIds_nodup (by rw [hids]; exact HN0)))
      hsub2ids
      (by
        intro i hi hc
        rw [hs6] at hc
        exact readyIds_not_completed i (hsl.subset hi) hc)
      (by rw [hs6]; exact inv.compNodup)
      (by rw [hs7, hs6]; exact inv.resKeys)
      (by
        intro i hi
        rw [hs6] at hi
        rw [hs7]
        exact inv.resVals i hi)
  refine ⟨_, sub2, by rw [hiter, hpoll], ?_, ?_, hsub2ne⟩
  · refine ⟨g1, g2, ?_, g4, g5, ?_, g7, g8, g9⟩
    · rw [g3, hs3, inv.deps]
    · intro i hi
      rw [g6, hs6] at hi
      rcases List.mem_append.mp hi with h1 | h2
      · exact inv.compSub i h1
      · exact hsub2ids i h2
  · rw [g6, hs6]

theorem runLoop_success (p0 : List TaskRT) (ctx0 : Ctx)
    (deps0 : List (String × List String)) (vmap : String → Val)
    (cfg : PipeConfig)
    (HV0 : ∀ t ∈ p0, ∀ ps, t.spec.validateFn ps = true)
    (HE0 : ∀ t ∈ p0, ∀ ps, t.spec.execFn ps ctx0 = Except.ok (vmap t.spec.task_id))
    (HN0 : (p0.map (fun t => t.spec.task_id)).Nodup)
    (HD : ∀ id ∈ p0.map (fun t => t.spec.task_id),
      ∀ d ∈ depsOf deps0 id, d ∈ p0.map (fun t => t.spec.task_id))
    (HT : ∃ order, topoOk deps0 [] order = true ∧
      ∀ id ∈ p0.map (fun t => t.spec.task_id), id ∈ order)
    (HW : 1 ≤ cfg.maxWorkers) :
    ∀ (k : Nat) (st : PipeState), RunInv p0 ctx0 deps0 vmap st →
      st.tasks.length - st.completedIds.length ≤ k →
      ∃ st2, runLoop cfg (k + 1) [] st = .done st2 ∧
        RunInv p0 ctx0 deps0 vmap st2 ∧
        p0.length ≤ st2.completedIds.length := by
  intro k
  induction k with
  | zero =>
    intro st inv hk
    have hc : st.tasks.length ≤ st.completedIds.length := by omega
    refine ⟨st, ?_, inv, ?_⟩
    · show (if st.tasks.length ≤ st.completedIds.length then RunResult.done st
        else _) = RunResult.done st
      rw [if_pos hc]
    · rw [inv.rel.length_eq]
      exact hc
  | succ k ih =>
    intro st inv hk
    by_cases hc : st.tasks.length ≤ st.completedIds.length
    · refine ⟨st, ?_, inv, ?_⟩
      · show (if st.tasks.length ≤ st.completedIds.length then RunResult.done st
          else _) = RunResult.done st
        rw [if_pos hc]
      · rw [inv.rel.length_eq]
        exact hc
    · obtain ⟨st2, extra, hiter, inv2, hcomp, hne⟩ :=
        loopIter_success p0 ctx0 deps0 vmap cfg HV0 HE0 HN0 HD HT HW st inv hc
      have hstep : runLoop cfg (k + 1 + 1) [] st = runLoop cfg (k + 1) [] st2 := by
        show (if st.tasks.length ≤ st.completedIds.length then RunResult.done st
          else match loopIter cfg (List.head? []) st with
               | .next st1 => runLoop cfg (k + 1) (List.drop 1 []) st1
               | .deadlockStop st1 => RunResult.deadlock st1) = _

        rw [if_neg hc]
        show (match loopIter cfg none st with
             | .next st1 => runLoop cfg (k + 1) [] st1
             | .deadlockStop st1 => RunResult.deadlock st1) = _
        rw [hiter]
      have hlen2 : st2.tasks.length = st.tasks.length := by
        rw [← inv2.rel.length_eq, inv.rel.length_eq]
      have hcl : st.completedIds.length < st2.completedIds.length := by
        rw [hcomp, List.length_append]
        have : extra.length ≠ 0 := by
          intro hz
          exact hne (List.length_eq_zero.mp hz)
        omega
      obtain ⟨st3, hrun, inv3, hfin⟩ := ih st2 inv2 (by omega)
      exact ⟨st3, by rw [hstep]; exact hrun, inv3, hfin⟩

/-- Claim C4: for a pipeline whose task ids are distinct, whose dependency
map is an acyclic graph over the task ids (witnessed by a topological
order), whose every task validates and whose every `execute` returns
normally (value `vmap id`, independent of the mutable `papers` field),
run with at least one worker, `Pipeline.execute` returns — within
`N + 1` scheduling iterations for `N` tasks — a results map with exactly
`N` entries, keyed by task id, each entry being the value that task's
`execute` returned. -/
theorem c4_successful_run_results (p : Pipeline) (vmap : String → Val)
    (HN : (p.state.tasks.map (fun t => t.spec.task_id)).Nodup)
    (HV : ∀ t ∈ p.state.tasks, ∀ ps, t.spec.validateFn ps = true)
    (HE : ∀ t ∈ p.state.tasks, ∀ ps,
      t.spec.execFn ps p.state.context = Except.ok (vmap t.spec.task_id))
    (HD : ∀ id ∈ p.state.tasks.map (fun t => t.spec.task_id),
      ∀ d ∈ depsOf p.state.dependencies id,
        d ∈ p.state.tasks.map (fun t => t.spec.task_id))
    (HT : ∃ order, topoOk p.state.dependencies [] order = true ∧
      ∀ id ∈ p.state.tasks.map (fun t => t.spec.task_id), id ∈ order)
    (HW : 1 ≤ p.cfg.maxWorkers)
    (HR : p.state.results = []) :
    ∃ res p2,
      Pipeline.execute (p.state.tasks.length + 1) [] p = (.ok res, p2) ∧
      res.length = p.state.tasks.length ∧
      ∀ t ∈ p.state.tasks, lookup res t.spec.task_id =
        some (vmap t.spec.task_id) := by
  have hinv : RunInv p.state.tasks p.state.context p.state.dependencies vmap
      (execInit p) := by
    refine ⟨trel_same _, rfl, rfl, rfl, rfl, ?_, List.nodup_nil, ?_, ?_⟩
    · intro id hid; cases hid
    · show p.state.results.map Prod.fst = []
      rw [HR]
      rfl
    · intro id hid; cases hid
  obtain ⟨st2, hrun, inv2, hlen⟩ :=
    runLoop_success p.state.tasks p.state.context p.state.dependencies vmap
      p.cfg HV HE HN HD HT HW p.state.tasks.length (execInit p) hinv
      (by
        show p.state.tasks.length - ([] : List String).length ≤
          p.state.tasks.length
        simp)
  have hexec : Pipeline.execute (p.state.tasks.length + 1) [] p =
      (.ok st2.results,
       { p with state := { st2 with futures := [] }, pstatus := "completed" }) := by
    unfold Pipeline.execute
    rw [hrun]
  have hsubperm : st2.completedIds.Subperm
      (p.state.tasks.map (fun t => t.spec.task_id)) :=
    inv2.compNodup.subperm (fun id hid => inv2.compSub id hid)
  have hlenids : (p.state.tasks.map (fun t => t.spec.task_id)).length =
      p.state.tasks.length := List.length_map _ _
  have hperm : st2.completedIds.Perm
      (p.state.tasks.map (fun t => t.spec.task_id)) :=
    hsubperm.perm_of_length_le (by rw [hlenids]; exact hlen)
  refine ⟨st2.results, _, hexec, ?_, ?_⟩
  · have hkl : (st2.results.map Prod.fst).length = st2.completedIds.length := by
      rw [inv2.resKeys]
    rw [List.length_map] at hkl
    rw [hkl]
    have h1 := hsubperm.length_le
    rw [hlenids] at h1
    omega
  · intro t ht
    have hidmem : t.spec.task_id ∈ st2.completedIds :=
      hperm.mem_iff.mpr (List.mem_map_of_mem _ ht)
    exact inv2.resVals t.spec.task_id hidmem

/-- Claim C4, concrete instance: the two-task pipeline (T1 returns "x",
T2 depends on T1 and returns "y") returns a two-entry results map holding
both values. -/
theorem c4_successful_run_results_witness :
    ∃ res p2,
      Pipeline.execute (pipeXY.state.tasks.length + 1) [] pipeXY =
        (.ok res, p2) ∧
      res.length = pipeXY.state.tasks.length ∧
      ∀ t ∈ pipeXY.state.tasks, lookup res t.spec.task_id =
        some ((fun id => if id = "T1" then Val.str "x" else Val.str "y")
          t.spec.task_id) :=
  c4_successful_run_results pipeXY
    (fun id => if id = "T1" then Val.str "x" else Val.str "y")
    (by decide)
    (by
      intro t ht ps
      have h2 : t = TaskRT.fresh taskX ∨ t = TaskRT.fresh taskY := by
        simpa [pipeXY, stateXY, freshState] using ht
      rcases h2 with rfl | rfl <;> rfl)
    (by
      intro t ht ps
      have h2 : t = TaskRT.fresh taskX ∨ t = TaskRT.fresh taskY := by
        simpa [pipeXY, stateXY, freshState] using ht
      rcases h2 with rfl | rfl <;> rfl)
    (by decide)
    ⟨["T1", "T2"], by decide, by decide⟩
    (by decide)
    rfl

end QuantMind
